import Mathlib

/-
Verification of the SIUE-ARC-Micro-Mouse maze tooling.

This file gives a shallow embedding of the two Python source files
`Simulation/Mazes/generate_maze.py` and `Simulation/Mazes/test_harness.py`
and proves the testable properties of the specification against it.

Modelling conventions:
  * Python `width x height` boolean wall matrices (lists of lists indexed
    `m[y][x]`) are embedded as total functions `Nat → Nat → Bool`; every read
    the source performs is at an in-bounds index, so the functional view is
    faithful.  Writes that the source performs through Python list assignment
    (which raises `IndexError` when the row or column index is out of range)
    are embedded as checked writes in the `Except String` monad wherever an
    out-of-range index is actually possible (the center/start overlays, whose
    indices are hard-coded); the writes of the Prim phase are guarded by the
    bounds tests of `add_walls` and provably never leave the matrix.
  * Python's global `random` is embedded as an explicit stream of natural
    numbers (`Rand`); each `random.randint(0, n-1)` / `random.choice` draw
    consumes one stream element and reduces it modulo the range size, so any
    sequence of draws the real generator can make is realised by some stream.
  * Both unbounded `while` loops (the BFS of `is_fully_connected` and the
    Prim frontier loop) are embedded with an explicit fuel that is proved
    sufficient below (`bfsRun_fixed`, `primRun_fixed`-style lemmas), so the
    fuelled functions compute exactly what the Python loops compute.
  * The retry loop of `generate_maze` need not terminate for an adversarial
    random stream, so it takes a retry fuel and answers `.error "RetryLimit"`
    when the fuel runs out; claims about returned mazes condition on `.ok`.
-/

namespace MicroMouse

/-- A wall/visited matrix, indexed `m y x` exactly as the Python lists are
indexed `m[y][x]`. -/
abbrev Mat := Nat → Nat → Bool

/-- Pointwise update `m[y][x] = b` of a matrix. -/
def mset (m : Mat) (y x : Nat) (b : Bool) : Mat :=
  fun y' x' => if y' = y ∧ x' = x then b else m y' x'

/-- The random stream: the values Python's `random` will hand out, one
element per draw, reduced modulo the range size at the point of use. -/
abbrev Rand := List Nat

/-- Consume one element of the random stream (0 once exhausted; only finite
prefixes of the real generator's output matter). -/
def nextRand : Rand → Nat × Rand
  | [] => (0, [])
  | a :: r => (a, r)

/-! ## `is_fully_connected` (generate_maze.py lines 29-76)

Breadth-first flood fill from `(0,0)`.  `visited` is the Python
`visited[y][x]` matrix, `queue` the `collections.deque` of `(x, y)` pairs,
`count` the running count of visited cells. -/

structure BfsState where
  visited : Mat
  queue : List (Nat × Nat)
  count : Nat

/-- One direction check of the flood-fill loop body: `if <in range> and not
<wall> and not visited[ny][nx]: mark, count += 1, append (nx, ny)`. -/
def tryMark (s : BfsState) (nx ny : Nat) (cond : Prop) [Decidable cond] : BfsState :=
  if cond ∧ s.visited ny nx = false then
    ⟨mset s.visited ny nx true, s.queue ++ [(nx, ny)], s.count + 1⟩
  else s

/-- The four direction checks of the loop body, in source order (north,
east, south, west), each an instance of the `tryMark` pattern. -/
def bfsProcess (horiz vert : Mat) (width height : Nat) (x y : Nat) (s : BfsState) : BfsState :=
  let s1 := tryMark s x (y+1) (y < height - 1 ∧ horiz y x = false)
  let s2 := tryMark s1 (x+1) y (x < width - 1 ∧ vert y x = false)
  let s3 := tryMark s2 x (y-1) (0 < y ∧ horiz (y-1) x = false)
  let s4 := tryMark s3 (x-1) y (0 < x ∧ vert y (x-1) = false)
  s4

/-- The `while queue:` loop, with fuel.  `width * height` units of fuel are
proved sufficient below, so `bfsRun` with that fuel ends with an empty queue
exactly as the Python loop does. -/
def bfsRun (horiz vert : Mat) (width height : Nat) : Nat → BfsState → BfsState
  | 0, s => s
  | fuel + 1, s =>
    match s.queue with
    | [] => s
    | (x, y) :: rest =>
      bfsRun horiz vert width height fuel
        (bfsProcess horiz vert width height x y { s with queue := rest })

/-- Initial flood-fill state: `(0,0)` visited and enqueued, count 1. -/
def bfsInit : BfsState :=
  { visited := mset (fun _ _ => false) 0 0 true, queue := [(0, 0)], count := 1 }

/-- `is_fully_connected(horiz, vert, width, height)`: flood fill from (0,0),
then `return count == width * height`. -/
def is_fully_connected (horiz vert : Mat) (width height : Nat) : Bool :=
  (bfsRun horiz vert width height (width * height) bfsInit).count == width * height

/-- One unit move of the specification's reachability relation: each move
crosses only an absent wall, with the spec's gating conditions — north from
`(x,y)` needs `y+1 < height` and `horiz[y][x]` absent, east needs
`x+1 < width` and `vert[y][x]` absent, south needs `y ≥ 1` and
`horiz[y-1][x]` absent, west needs `x ≥ 1` and `vert[y][x-1]` absent. -/
inductive Adj (horiz vert : Mat) (width height : Nat) : Nat × Nat → Nat × Nat → Prop
  | north (x y : Nat) (hy : y + 1 < height) (hw : horiz y x = false) :
      Adj horiz vert width height (x, y) (x, y + 1)
  | east (x y : Nat) (hx : x + 1 < width) (hw : vert y x = false) :
      Adj horiz vert width height (x, y) (x + 1, y)
  | south (x y : Nat) (hy : 0 < y) (hw : horiz (y - 1) x = false) :
      Adj horiz vert width height (x, y) (x, y - 1)
  | west (x y : Nat) (hx : 0 < x) (hw : vert y (x - 1) = false) :
      Adj horiz vert width height (x, y) (x - 1, y)

/-- Reachability of a cell from the start cell `(0,0)` by legal moves. -/
def Reaches (horiz vert : Mat) (width height : Nat) (c : Nat × Nat) : Prop :=
  Relation.ReflTransGen (Adj horiz vert width height) (0, 0) c

/-- The number of in-grid cells a visited matrix marks (pairs are `(y, x)`). -/
def visCount (v : Mat) (width height : Nat) : Nat :=
  (((Finset.range height) ×ˢ (Finset.range width)).filter fun p => v p.1 p.2 = true).card

/-- Every open neighbour of `(x, y)` is marked in `v`. -/
def closedAt (horiz vert : Mat) (width height : Nat) (v : Mat) (x y : Nat) : Prop :=
  (y < height - 1 → horiz y x = false → v (y+1) x = true) ∧
  (x < width - 1 → vert y x = false → v y (x+1) = true) ∧
  (0 < y → horiz (y-1) x = false → v (y-1) x = true) ∧
  (0 < x → vert y (x-1) = false → v y (x-1) = true)

/-- The flood-fill loop invariant: the count mirrors the visited matrix, all
visited cells are in range and reachable, queued cells are visited, and
every visited cell is still queued or has all its open neighbours visited. -/
structure BfsInv (horiz vert : Mat) (width height : Nat) (s : BfsState) : Prop where
  count_eq : s.count = visCount s.visited width height
  vis_range : ∀ y x, s.visited y x = true → x < width ∧ y < height
  vis_reach : ∀ y x, s.visited y x = true → Reaches horiz vert width height (x, y)
  queue_vis : ∀ p ∈ s.queue, s.visited p.2 p.1 = true
  processed : ∀ y x, s.visited y x = true →
    (x, y) ∈ s.queue ∨ closedAt horiz vert width height s.visited x y

/-- The termination measure of the flood fill. -/
def bfsPotential (s : BfsState) (width height : Nat) : Nat :=
  s.queue.length + (width * height - visCount s.visited width height)

/-! ## The Prim phase of `generate_maze` (generate_maze.py lines 98-125) -/

/-- A candidate wall `(x1, y1, x2, y2, dtype)` exactly as pushed by
`add_walls`; `t` is the Python `dtype` character `'v'` or `'h'`. -/
structure Cand where
  x1 : Nat
  y1 : Nat
  x2 : Nat
  y2 : Nat
  t : Char
deriving DecidableEq

/-- `add_walls(x, y)`: append the up-to-four candidate walls around `(x, y)`
to the candidate list, in source order. -/
def add_walls (width height x y : Nat) (cw : List Cand) : List Cand :=
  let cw := if 0 < x then cw ++ [⟨x-1, y, x, y, 'v'⟩] else cw
  let cw := if x < width - 1 then cw ++ [⟨x, y, x+1, y, 'v'⟩] else cw
  let cw := if 0 < y then cw ++ [⟨x, y-1, x, y, 'h'⟩] else cw
  let cw := if y < height - 1 then cw ++ [⟨x, y, x, y+1, 'h'⟩] else cw
  cw

structure PrimState where
  horiz : Mat
  vert : Mat
  seen : Mat
  cands : List Cand
  rand : Rand

/-- One iteration of the Prim loop: pop `candidate_walls[i]` for a random
index `i`, and if exactly one side has been seen, knock the wall down, mark
the newly reached cell seen and append its candidate walls. -/
def primStep (width height : Nat) (s : PrimState) : PrimState :=
  let p := nextRand s.rand
  let i := p.1 % s.cands.length
  let c := s.cands.getD i ⟨0, 0, 0, 0, 'v'⟩
  let rest := s.cands.eraseIdx i
  if xor (s.seen c.y1 c.x1) (s.seen c.y2 c.x2) then
    let horiz' := if c.t = 'v' then s.horiz else mset s.horiz c.y1 c.x1 false
    let vert' := if c.t = 'v' then mset s.vert c.y1 c.x1 false else s.vert
    let nc := if s.seen c.y2 c.x2 then (c.x1, c.y1) else (c.x2, c.y2)
    { horiz := horiz', vert := vert',
      seen := mset s.seen nc.2 nc.1 true,
      cands := add_walls width height nc.1 nc.2 rest,
      rand := p.2 }
  else
    { s with cands := rest, rand := p.2 }

/-- The `while candidate_walls:` loop, with fuel; `4 * width * height` units
are proved sufficient below. -/
def primRun (width height : Nat) : Nat → PrimState → PrimState
  | 0, s => s
  | fuel + 1, s =>
    if s.cands.isEmpty then s
    else primRun width height fuel (primStep width height s)

/-- The state just before the Prim loop starts: all walls up, `(0,0)` seen,
its candidate walls queued. -/
def primInit (width height : Nat) (rand : Rand) : PrimState :=
  { horiz := fun _ _ => true, vert := fun _ _ => true,
    seen := mset (fun _ _ => false) 0 0 true,
    cands := add_walls width height 0 0 [],
    rand := rand }

/-- STEP 1 of `generate_maze`: the complete Prim phase. -/
def primPhase (width height : Nat) (rand : Rand) : PrimState :=
  primRun width height (4 * (width * height)) (primInit width height rand)

/-- Shape of every candidate wall `add_walls` ever pushes: a vertical wall
record `(x1, y1, x1+1, y1, 'v')` for the `vert[y1][x1]` wall between the
in-range cells `(x1,y1)` and `(x1+1,y1)`, or a horizontal wall record
`(x1, y1, x1, y1+1, 'h')` for `horiz[y1][x1]`. -/
def candOK (width height : Nat) (c : Cand) : Prop :=
  (c.t = 'v' ∧ c.x2 = c.x1 + 1 ∧ c.y2 = c.y1 ∧ c.x2 < width ∧ c.y1 < height) ∨
  (c.t = 'h' ∧ c.x2 = c.x1 ∧ c.y2 = c.y1 + 1 ∧ c.x1 < width ∧ c.y2 < height)

/-- The number of matrix entries equal to `False` (walls knocked down). -/
def falseCount (m : Mat) (width height : Nat) : Nat :=
  (((Finset.range height) ×ˢ (Finset.range width)).filter fun p => m p.1 p.2 = false).card

/-- Total number of absent walls over both matrices. -/
def falseTotal (horiz vert : Mat) (width height : Nat) : Nat :=
  falseCount horiz width height + falseCount vert width height

/-- The Prim loop invariant. -/
structure PrimInv (width height : Nat) (s : PrimState) : Prop where
  seen00 : s.seen 0 0 = true
  seen_range : ∀ y x, s.seen y x = true → x < width ∧ y < height
  cand_range : ∀ c ∈ s.cands, candOK width height c
  seen_reach : ∀ y x, s.seen y x = true → Reaches s.horiz s.vert width height (x, y)
  count_eq : falseTotal s.horiz s.vert width height + 1 = visCount s.seen width height
  hfalse_seen : ∀ y x, s.horiz y x = false → s.seen y x = true ∧ s.seen (y+1) x = true
  vfalse_seen : ∀ y x, s.vert y x = false → s.seen y x = true ∧ s.seen y (x+1) = true
  frontier_v : ∀ x y, x + 1 < width → y < height → ¬(s.seen y x = s.seen y (x+1)) →
    (⟨x, y, x+1, y, 'v'⟩ : Cand) ∈ s.cands
  frontier_h : ∀ x y, x < width → y + 1 < height → ¬(s.seen y x = s.seen (y+1) x) →
    (⟨x, y, x, y+1, 'h'⟩ : Cand) ∈ s.cands

/-- The termination measure of the Prim loop. -/
def primPotential (s : PrimState) (width height : Nat) : Nat :=
  s.cands.length + 4 * (width * height - visCount s.seen width height)

/-! ## The overlays and retry loop of `generate_maze` (lines 79-214) -/

/-- A Python list assignment `m[y][x] = b` on a `height x width` matrix:
raises `IndexError` when the index is out of range (both matrices have
`height` rows of `width` entries; negative indices do not occur). -/
def msetChecked (width height : Nat) (m : Mat) (y x : Nat) (b : Bool) : Except String Mat :=
  if y < height ∧ x < width then .ok (mset m y x b) else .error "IndexError"

/-- The `center_perimeter` list of the source: the 8 perimeter walls of the
2x2 center, each as `(x, y, wall_type)` meaning `horiz[y][x]` for `'h'` and
`vert[y][x]` for `'v'`. -/
def center_perimeter : List (Nat × Nat × Char) :=
  [(4, 3, 'h'), (5, 3, 'h'), (4, 5, 'h'), (5, 5, 'h'),
   (3, 4, 'v'), (3, 5, 'v'), (5, 4, 'v'), (5, 5, 'v')]

/-- Write one perimeter entry: `horiz[y][x] = b` if `t = 'h'`, else
`vert[y][x] = b`. -/
def setWallEntry (width height : Nat) (hv : Mat × Mat) (x y : Nat) (t : Char) (b : Bool) :
    Except String (Mat × Mat) :=
  if t = 'h' then do
    let horiz' ← msetChecked width height hv.1 y x b
    .ok (horiz', hv.2)
  else do
    let vert' ← msetChecked width height hv.2 y x b
    .ok (hv.1, vert')

/-- STEP 2 of `generate_maze`: clear the four internal walls of the 2x2
center, force the 8 perimeter walls on, then open one random perimeter wall
as the single entrance. -/
def centerOverlay (width height : Nat) (horiz vert : Mat) (rand : Rand) :
    Except String (Mat × Mat × Rand) := do
  let vert ← msetChecked width height vert 4 4 false
  let vert ← msetChecked width height vert 5 4 false
  let horiz ← msetChecked width height horiz 4 4 false
  let horiz ← msetChecked width height horiz 4 5 false
  let hv ← center_perimeter.foldlM
    (fun hv e => setWallEntry width height hv e.1 e.2.1 e.2.2 true) (horiz, vert)
  let p := nextRand rand
  let e := center_perimeter.getD (p.1 % center_perimeter.length) (0, 0, 'h')
  let hv ← setWallEntry width height hv e.1 e.2.1 e.2.2 false
  .ok (hv.1, hv.2, p.2)

/-- STEP 3 of `generate_maze`: randomly wall either the north or the east
side of the start cell `(0,0)` and open the other one. -/
def startOverlay (width height : Nat) (horiz vert : Mat) (rand : Rand) :
    Except String (Mat × Mat × Rand) := do
  let p := nextRand rand
  if p.1 % 2 = 0 then
    let horiz' ← msetChecked width height horiz 0 0 true
    let vert' ← msetChecked width height vert 0 0 false
    .ok (horiz', vert', p.2)
  else
    let horiz' ← msetChecked width height horiz 0 0 false
    let vert' ← msetChecked width height vert 0 0 true
    .ok (horiz', vert', p.2)

/-- `generate_maze(width, height)`: Prim phase, center overlay, start
overlay, connectivity check, retrying from scratch on a failed check.  The
retry fuel models the unbounded `while True:`; `.error "RetryLimit"` marks
the (never-observed-in-source) truncation of an unbounded retry run. -/
def generate_maze (width height : Nat) : Nat → Rand → Except String (Mat × Mat)
  | 0, _ => .error "RetryLimit"
  | fuel + 1, rand => do
    let s := primPhase width height rand
    let co ← centerOverlay width height s.horiz s.vert s.rand
    let so ← startOverlay width height co.1 co.2.1 co.2.2
    if is_fully_connected so.1 so.2.1 width height then .ok (so.1, so.2.1)
    else generate_maze width height fuel so.2.2

/-- One line of `save_maze` (lines 217-243), modelled at the level of the
parsed file: the record `[x, y, n, e, s, w]` of integer fields, the four
wall fields derived from the matrices plus the boundary rules.  The numeral
formatting/parsing of the actual text line is Python's int literal round
trip and is outside the model. -/
def saveRec (horiz vert : Mat) (width height x y : Nat) : List Int :=
  let n : Int := if y = height - 1 ∨ horiz y x = true then 1 else 0
  let e : Int := if x = width - 1 ∨ vert y x = true then 1 else 0
  let s : Int := if y = 0 ∨ horiz (y-1) x = true then 1 else 0
  let w : Int := if x = 0 ∨ vert y (x-1) = true then 1 else 0
  [(x : Int), (y : Int), n, e, s, w]

/-- The full file body written by `save_maze`. -/
def save_maze (horiz vert : Mat) (width height : Nat) : List (List Int) :=
  (List.range width).flatMap fun (x : Nat) =>
    (List.range height).map fun (y : Nat) => saveRec horiz vert width height x y

/-- The horiz matrix after the four interior clears and the eight forced
perimeter writes of the center overlay (in source order); used to state the
evaluation lemma for `centerOverlay`. -/
def hForced (h : Mat) : Mat :=
  mset (mset (mset (mset (mset (mset h 4 4 false) 4 5 false) 3 4 true) 3 5 true) 5 4 true)
    5 5 true

/-- The vert matrix after the interior clears and forced perimeter writes. -/
def vForced (v : Mat) : Mat :=
  mset (mset (mset (mset (mset (mset v 4 4 false) 5 4 false) 4 3 true) 5 3 true) 4 5 true)
    5 5 true

/-- How many of the 8 perimeter walls of the 2x2 center (the entries of
`center_perimeter`, written out) are absent. -/
def perimCount (horiz vert : Mat) : Nat :=
  (if horiz 3 4 = false then 1 else 0) + (if horiz 3 5 = false then 1 else 0) +
  (if horiz 5 4 = false then 1 else 0) + (if horiz 5 5 = false then 1 else 0) +
  (if vert 4 3 = false then 1 else 0) + (if vert 5 3 = false then 1 else 0) +
  (if vert 4 5 = false then 1 else 0) + (if vert 5 5 = false then 1 else 0)

/-- Whether an `Except` value is a success, without inspecting the payload
(payloads here contain functions, so full equality is not decidable but
success-ness is). -/
def exceptOk {α : Type} : Except String α → Bool
  | .ok _ => true
  | .error _ => false

/-- The payload of a successful `Except` value (default otherwise). -/
def okValue {α : Type} (d : α) : Except String α → α
  | .ok a => a
  | .error _ => d

/-- A linear-congruential generator supplying concrete pseudo-random input
streams for end-to-end runs of `generate_maze`. -/
def lcgNext (s : Nat) : Nat := (s * 1103515245 + 12345) % 2147483648

/-- `lcgList seed n`: a concrete `n`-element random stream. -/
def lcgList : Nat → Nat → Rand
  | _, 0 => []
  | s, n + 1 => lcgNext s % 1000 :: lcgList (lcgNext s) n

/-! ## The test harness (test_harness.py)

The driven solver process is embedded as the finite list of command lines it
writes to its stdout before closing the stream; the harness's replies (the
lines written to the solver's stdin) are collected in a list.  Process
management (`Popen`, `kill`, `wait`) is outside the model. -/

/-- `MAX_STEPS` (test_harness.py line 44). -/
def MAX_STEPS : Nat := 5000

/-- `MAZE_WIDTH` (line 47). -/
def MAZE_WIDTH : Int := 10

/-- `MAZE_HEIGHT` (line 48). -/
def MAZE_HEIGHT : Int := 10

/-- `CENTER_CELLS` (line 51). -/
def CENTER_CELLS : List (Int × Int) := [(4, 4), (4, 5), (5, 4), (5, 5)]

/-- Prefix test on character lists (structural, so that concrete protocol
lines evaluate inside the kernel). -/
def listPrefix : List Char → List Char → Bool
  | [], _ => true
  | _ :: _, [] => false
  | a :: as, b :: bs => a == b && listPrefix as bs

/-- Python's `str.strip()` on a protocol line: drop leading and trailing
whitespace.  (Extensionally `String.trim`, but defined structurally on the
character list because the library function is well-founded recursion on
byte positions, which kernel reduction cannot evaluate.) -/
def pyStrip (s : String) : String :=
  ⟨((s.data.dropWhile Char.isWhitespace).reverse.dropWhile Char.isWhitespace).reverse⟩

/-- Python's `str.startswith(pre)` (extensionally `String.startsWith`,
structural for the same reason as `pyStrip`). -/
def pyStartsWith (s pre : String) : Bool :=
  listPrefix pre.data s.data

/-- One value of the wall dictionary built by `load_maze`: the four absolute
per-cell wall booleans. -/
structure CellW where
  n : Bool
  e : Bool
  s : Bool
  w : Bool
deriving DecidableEq

/-- The wall lookup dictionary `(x, y) -> {'n','e','s','w'}`; `none` for a
key not in the dictionary. -/
abbrev Walls := Int → Int → Option CellW

/-- The empty dictionary `walls = {}`. -/
def emptyWalls : Walls := fun _ _ => none

/-- Python dictionary assignment `walls[(x, y)] = cell`. -/
def dictInsert (d : Walls) (x y : Int) (c : CellW) : Walls :=
  fun x' y' => if x' = x ∧ y' = y then some c else d x' y'

/-- `load_maze` (lines 89-114), on the parsed integer fields of each
non-blank line: `walls[(x,y)] = {'n': bool(n), ...}` for fields
`x y n e s w`, later lines overwriting earlier ones.  Every line written by
`save_maze` has exactly six fields, which is the only shape the round-trip
claims exercise.  `loadStep` is the body of the `for line in f:` loop. -/
def loadStep (d : Walls) (parts : List Int) : Walls :=
  let x := parts.getD 0 0
  let y := parts.getD 1 0
  let n := parts.getD 2 0
  let e := parts.getD 3 0
  let s := parts.getD 4 0
  let w := parts.getD 5 0
  dictInsert d x y ⟨n != 0, e != 0, s != 0, w != 0⟩

/-- The full `load_maze` fold over the file lines. -/
def load_maze (lines : List (List Int)) : Walls :=
  lines.foldl loadStep emptyWalls

/-- `wall_in_direction` (lines 117-129): `0=North, 1=East, 2=South, 3=West`;
a cell missing from the dictionary counts as walled.  Every call site keeps
`direction` in `0..3` (headings are maintained mod 4). -/
def wall_in_direction (walls : Walls) (x y : Int) (direction : Nat) : Bool :=
  match walls x y with
  | none => true
  | some c =>
    if direction = 0 then c.n
    else if direction = 1 then c.e
    else if direction = 2 then c.s
    else c.w

/-- The direction vector `dx = [0, 1, 0, -1]`. -/
def dxv (h : Nat) : Int :=
  if h = 0 then 0 else if h = 1 then 1 else if h = 2 then 0 else -1

/-- The direction vector `dy = [1, 0, -1, 0]`. -/
def dyv (h : Nat) : Int :=
  if h = 0 then 1 else if h = 1 then 0 else if h = 2 then -1 else 0

/-- The mouse state dictionary of `simulate` (lines 148-154): position,
heading, cumulative forward-move count.  (The `'phase'` entry of the source
is written once and never read, so it is omitted.) -/
structure AgentState where
  x : Int
  y : Int
  heading : Nat
  steps : Nat
deriving DecidableEq

/-- `do_move_forward` (lines 169-185): crash on a wall ahead or an
out-of-bounds destination, otherwise advance and count the step.  Returns
the reply string together with the (possibly unchanged) state. -/
def do_move_forward (walls : Walls) (st : AgentState) : String × AgentState :=
  let h := st.heading
  let nx := st.x + dxv h
  let ny := st.y + dyv h
  if wall_in_direction walls st.x st.y h then ("crash", st)
  else if nx < 0 ∨ MAZE_WIDTH ≤ nx ∨ ny < 0 ∨ MAZE_HEIGHT ≤ ny then ("crash", st)
  else ("ack", { st with x := nx, y := ny, steps := st.steps + 1 })

/-- The per-session tracking state of `simulate`: the mouse state plus the
two one-shot flags `reached_center` and `reached_start` (lines 202-203). -/
structure SessState where
  agent : AgentState
  reached_center : Bool
  reached_start : Bool
deriving DecidableEq

/-- The result dictionary of `simulate` (lines 316-320). -/
structure SimResult where
  success : Bool
  steps : Nat
  reason : String
deriving DecidableEq

/-- The crash reason f-string of line 259, formatted from the state left by
`do_move_forward`. -/
def crashReason (a : AgentState) : String :=
  let x := a.x
  let y := a.y
  let h := a.heading
  s!"Crash: mouse moved into a wall at ({x},{y}) heading {h}"

/-- The timeout reason f-string of line 209. -/
def timeoutReason : String := s!"Timeout: exceeded {MAX_STEPS} steps"

/-- The end-of-input classification of lines 216-224. -/
def exitReason (s : SessState) : String :=
  if s.reached_center = true ∧ s.reached_start = true then
    let steps := s.agent.steps
    s!"Fast run complete in {steps} steps"
  else if s.reached_center = true then "Reached center but did not return to start"
  else "Process exited without reaching center"

/-- Outcome of serving one command line: either the session continues in a
new state, or it crashed and is torn down. -/
inductive StepOut where
  | cont (s : SessState) (out : List String)
  | crashed (s : SessState) (reason : String) (out : List String)

/-- The command dispatch of the `simulate` loop body (lines 226-301), for
one line read from the solver, in source order.  `out` collects the lines
written to the solver's stdin. -/
def procCmd (walls : Walls) (s : SessState) (line : String) : StepOut :=
  let cmd := pyStrip line
  if cmd = "mazeWidth" then .cont s [toString MAZE_WIDTH]
  else if cmd = "mazeHeight" then .cont s [toString MAZE_HEIGHT]
  else if cmd = "wallFront" then
    .cont s [if wall_in_direction walls s.agent.x s.agent.y s.agent.heading then "true"
             else "false"]
  else if cmd = "wallRight" then
    .cont s [if wall_in_direction walls s.agent.x s.agent.y ((s.agent.heading + 1) % 4)
             then "true" else "false"]
  else if cmd = "wallLeft" then
    .cont s [if wall_in_direction walls s.agent.x s.agent.y ((s.agent.heading + 3) % 4)
             then "true" else "false"]
  else if pyStartsWith cmd "moveForward" then
    let r := do_move_forward walls s.agent
    if r.1 = "crash" then
      .crashed { s with agent := r.2 } (crashReason r.2) [r.1]
    else
      let pos := (r.2.x, r.2.y)
      if CENTER_CELLS.contains pos = true ∧ s.reached_center = false then
        .cont { agent := r.2, reached_center := true, reached_start := s.reached_start } [r.1]
      else if pos = (0, 0) ∧ s.reached_center = true ∧ s.reached_start = false then
        .cont { agent := r.2, reached_center := s.reached_center, reached_start := true } [r.1]
      else
        .cont { s with agent := r.2 } [r.1]
  else if cmd = "turnRight" then
    .cont { s with agent := { s.agent with heading := (s.agent.heading + 1) % 4 } } ["ack"]
  else if cmd = "turnLeft" then
    .cont { s with agent := { s.agent with heading := (s.agent.heading + 3) % 4 } } ["ack"]
  else if cmd = "wasReset" then .cont s ["false"]
  else if cmd = "ackReset" then .cont s ["ack"]
  else if pyStartsWith cmd "setWall" ∨ pyStartsWith cmd "clearWall" ∨
          pyStartsWith cmd "setColor" ∨ pyStartsWith cmd "clearColor" ∨
          pyStartsWith cmd "clearAllColor" ∨ pyStartsWith cmd "setText" ∨
          pyStartsWith cmd "clearText" ∨ pyStartsWith cmd "clearAllText" then
    .cont s []
  else .cont s []

/-- The `while True:` session loop of `simulate` (lines 205-320): check the
step budget, read the next line (`[]` models the stream ending), serve the
command; crash and timeout tear the session down, end of input classifies by
the two flags.  Returns the result record and the replies written. -/
def simLoop (walls : Walls) : SessState → List String → SimResult × List String
  | s, [] =>
    if MAX_STEPS < s.agent.steps then
      ({ success := false, steps := s.agent.steps, reason := timeoutReason }, [])
    else
      ({ success := s.reached_center && s.reached_start, steps := s.agent.steps,
         reason := exitReason s }, [])
  | s, line :: rest =>
    if MAX_STEPS < s.agent.steps then
      ({ success := false, steps := s.agent.steps, reason := timeoutReason }, [])
    else
      match procCmd walls s line with
      | .crashed s' reason out =>
        ({ success := false, steps := s'.agent.steps, reason := reason }, out)
      | .cont s' out =>
        let r := simLoop walls s' rest
        (r.1, out ++ r.2)

/-- The session start state of `simulate`: position `(0,0)`, heading North,
no steps, both flags false (lines 148-154, 202-203). -/
def initSess : SessState :=
  { agent := { x := 0, y := 0, heading := 0, steps := 0 },
    reached_center := false, reached_start := false }

/-- `simulate` on an already-loaded maze, driven by the given command lines. -/
def simulate (walls : Walls) (lines : List String) : SimResult × List String :=
  simLoop walls initSess lines

/-- The dictionary key `(x, y)` of a parsed line. -/
def lineKey (parts : List Int) : Int × Int := (parts.getD 0 0, parts.getD 1 0)

/-- The cell value `load_maze` builds from a parsed line. -/
def lineCell (parts : List Int) : CellW :=
  ⟨parts.getD 2 0 != 0, parts.getD 3 0 != 0, parts.getD 4 0 != 0, parts.getD 5 0 != 0⟩

/-! ## Basic facts about matrix updates -/

@[simp] theorem mset_same (m : Mat) (y x : Nat) (b : Bool) : mset m y x b y x = b := by
  simp [mset]

theorem mset_other (m : Mat) (y x : Nat) (b : Bool) {y' x' : Nat}
    (h : ¬(y' = y ∧ x' = x)) : mset m y x b y' x' = m y' x' := by
  simp [mset, h]

/-! ## Helper lemmas about the harness -/

/-- A blocked forward move (wall ahead, or destination out of bounds)
returns the `crash` reply with the state untouched. -/
theorem dmf_crash (walls : Walls) (st : AgentState)
    (hblock : wall_in_direction walls st.x st.y st.heading = true ∨
      st.x + dxv st.heading < 0 ∨ MAZE_WIDTH ≤ st.x + dxv st.heading ∨
      st.y + dyv st.heading < 0 ∨ MAZE_HEIGHT ≤ st.y + dyv st.heading) :
    do_move_forward walls st = ("crash", st) := by
  by_cases hw : wall_in_direction walls st.x st.y st.heading = true
  · simp only [do_move_forward]
    rw [if_pos hw]
  · have hb := hblock.resolve_left hw
    simp only [do_move_forward]
    rw [if_neg hw, if_pos hb]

/-- Any forward move either crashes with the state untouched or acks with
the step counter bumped by exactly one. -/
theorem dmf_cases (walls : Walls) (st : AgentState) :
    do_move_forward walls st = ("crash", st) ∨
      ((do_move_forward walls st).1 = "ack" ∧
        (do_move_forward walls st).2.steps = st.steps + 1) := by
  simp only [do_move_forward]
  split
  · exact Or.inl rfl
  · split
    · exact Or.inl rfl
    · exact Or.inr ⟨rfl, rfl⟩

/-- Characterisation of every continuing command: the step counter moves by
at most one, the two flags are monotone, a successful `moveForward` updates
them by exactly the source's first-visit rules, and every other command
leaves them alone. -/
theorem procCmd_cont_master (walls : Walls) (s : SessState) (line : String)
    (s' : SessState) (out : List String) (h : procCmd walls s line = .cont s' out) :
    (s'.agent.steps = s.agent.steps ∨ s'.agent.steps = s.agent.steps + 1) ∧
    (s.reached_center = true → s'.reached_center = true) ∧
    (s.reached_start = true → s'.reached_start = true) ∧
    (pyStartsWith (pyStrip line) "moveForward" = true ∧ (do_move_forward walls s.agent).1 = "ack" →
      ((s'.reached_center = true ↔
        (s.reached_center = true ∨ (s'.agent.x, s'.agent.y) ∈ CENTER_CELLS)) ∧
       (s'.reached_start = true ↔
        (s.reached_start = true ∨
          ((s'.agent.x, s'.agent.y) = (0, 0) ∧ s.reached_center = true))))) ∧
    (¬(pyStartsWith (pyStrip line) "moveForward" = true ∧ (do_move_forward walls s.agent).1 = "ack") →
      s'.reached_center = s.reached_center ∧ s'.reached_start = s.reached_start ∧
        s'.agent.steps = s.agent.steps) := by
  unfold procCmd at h
  by_cases hc1 : pyStrip line = "mazeWidth"
  · rw [hc1, if_pos rfl] at h
    cases h
    refine ⟨Or.inl rfl, fun h => h, fun h => h, fun hmv => ?_, fun _ => ⟨rfl, rfl, rfl⟩⟩
    rw [hc1] at hmv; exact absurd hmv.1 (by decide)
  rw [if_neg hc1] at h
  by_cases hc2 : pyStrip line = "mazeHeight"
  · rw [hc2, if_pos rfl] at h
    cases h
    refine ⟨Or.inl rfl, fun h => h, fun h => h, fun hmv => ?_, fun _ => ⟨rfl, rfl, rfl⟩⟩
    rw [hc2] at hmv; exact absurd hmv.1 (by decide)
  rw [if_neg hc2] at h
  by_cases hc3 : pyStrip line = "wallFront"
  · rw [hc3, if_pos rfl] at h
    cases h
    refine ⟨Or.inl rfl, fun h => h, fun h => h, fun hmv => ?_, fun _ => ⟨rfl, rfl, rfl⟩⟩
    rw [hc3] at hmv; exact absurd hmv.1 (by decide)
  rw [if_neg hc3] at h
  by_cases hc4 : pyStrip line = "wallRight"
  · rw [hc4, if_pos rfl] at h
    cases h
    refine ⟨Or.inl rfl, fun h => h, fun h => h, fun hmv => ?_, fun _ => ⟨rfl, rfl, rfl⟩⟩
    rw [hc4] at hmv; exact absurd hmv.1 (by decide)
  rw [if_neg hc4] at h
  by_cases hc5 : pyStrip line = "wallLeft"
  · rw [hc5, if_pos rfl] at h
    cases h
    refine ⟨Or.inl rfl, fun h => h, fun h => h, fun hmv => ?_, fun _ => ⟨rfl, rfl, rfl⟩⟩
    rw [hc5] at hmv; exact absurd hmv.1 (by decide)
  rw [if_neg hc5] at h
  by_cases hc6 : pyStartsWith (pyStrip line) "moveForward" = true
  · rw [if_pos hc6] at h
    rcases dmf_cases walls s.agent with hdm | ⟨hack, hsteps⟩
    · rw [hdm] at h
      rw [if_pos rfl] at h
      exact StepOut.noConfusion h
    · rw [if_neg (by rw [hack]; decide)] at h
      by_cases hcen : CENTER_CELLS.contains
          ((do_move_forward walls s.agent).2.x, (do_move_forward walls s.agent).2.y) = true ∧
          s.reached_center = false
      · rw [if_pos hcen] at h
        cases h
        refine ⟨Or.inr hsteps, fun _ => rfl, fun h => h, fun _ => ⟨?_, ?_⟩,
          fun hnm => absurd ⟨hc6, hack⟩ hnm⟩
        · simp only [true_iff]
          exact Or.inr (List.elem_iff.mp hcen.1)
        · constructor
          · exact fun h => Or.inl h
          · rintro (h | ⟨_, hfalse⟩)
            · exact h
            · rw [hcen.2] at hfalse; exact absurd hfalse (by decide)
      · rw [if_neg hcen] at h
        by_cases hret : ((do_move_forward walls s.agent).2.x,
            (do_move_forward walls s.agent).2.y) = ((0 : Int), (0 : Int)) ∧
            s.reached_center = true ∧ s.reached_start = false
        · rw [if_pos hret] at h
          cases h
          refine ⟨Or.inr hsteps, fun h => h, fun _ => rfl, fun _ => ⟨?_, ?_⟩,
            fun hnm => absurd ⟨hc6, hack⟩ hnm⟩
          · rw [hret.2.1]
            simp
          · simp only [true_iff]
            exact Or.inr ⟨hret.1, hret.2.1⟩
        · rw [if_neg hret] at h
          cases h
          refine ⟨Or.inr hsteps, fun h => h, fun h => h, fun _ => ⟨?_, ?_⟩,
            fun hnm => absurd ⟨hc6, hack⟩ hnm⟩
          · constructor
            · exact fun h => Or.inl h
            · rintro (h | hmem)
              · exact h
              · by_cases hrc : s.reached_center = true
                · exact hrc
                · exact absurd ⟨List.elem_iff.mpr hmem,
                    Bool.not_eq_true _ ▸ hrc⟩ hcen
          · constructor
            · exact fun h => Or.inl h
            · rintro (h | ⟨hpos, hrc⟩)
              · exact h
              · by_cases hrs : s.reached_start = true
                · exact hrs
                · exact absurd ⟨hpos, hrc, Bool.not_eq_true _ ▸ hrs⟩ hret
  rw [if_neg hc6] at h
  by_cases hc7 : pyStrip line = "turnRight"
  · rw [hc7, if_pos rfl] at h
    cases h
    exact ⟨Or.inl rfl, fun h => h, fun h => h, fun hmv => absurd hmv.1 hc6,
      fun _ => ⟨rfl, rfl, rfl⟩⟩
  rw [if_neg hc7] at h
  by_cases hc8 : pyStrip line = "turnLeft"
  · rw [hc8, if_pos rfl] at h
    cases h
    exact ⟨Or.inl rfl, fun h => h, fun h => h, fun hmv => absurd hmv.1 hc6,
      fun _ => ⟨rfl, rfl, rfl⟩⟩
  rw [if_neg hc8] at h
  by_cases hc9 : pyStrip line = "wasReset"
  · rw [hc9, if_pos rfl] at h
    cases h
    exact ⟨Or.inl rfl, fun h => h, fun h => h, fun hmv => absurd hmv.1 hc6,
      fun _ => ⟨rfl, rfl, rfl⟩⟩
  rw [if_neg hc9] at h
  by_cases hc10 : pyStrip line = "ackReset"
  · rw [hc10, if_pos rfl] at h
    cases h
    exact ⟨Or.inl rfl, fun h => h, fun h => h, fun hmv => absurd hmv.1 hc6,
      fun _ => ⟨rfl, rfl, rfl⟩⟩
  rw [if_neg hc10] at h
  by_cases hc11 : pyStartsWith (pyStrip line) "setWall" = true ∨ pyStartsWith (pyStrip line) "clearWall" = true ∨
      pyStartsWith (pyStrip line) "setColor" = true ∨ pyStartsWith (pyStrip line) "clearColor" = true ∨
      pyStartsWith (pyStrip line) "clearAllColor" = true ∨ pyStartsWith (pyStrip line) "setText" = true ∨
      pyStartsWith (pyStrip line) "clearText" = true ∨ pyStartsWith (pyStrip line) "clearAllText" = true
  · rw [if_pos hc11] at h
    cases h
    exact ⟨Or.inl rfl, fun h => h, fun h => h, fun hmv => absurd hmv.1 hc6,
      fun _ => ⟨rfl, rfl, rfl⟩⟩
  · rw [if_neg hc11] at h
    cases h
    exact ⟨Or.inl rfl, fun h => h, fun h => h, fun hmv => absurd hmv.1 hc6,
      fun _ => ⟨rfl, rfl, rfl⟩⟩

/-- A crash outcome of the dispatcher can only come from the `moveForward`
branch, with the state unchanged, the crash reason, and the single `crash`
reply. -/
theorem procCmd_crashed_inv (walls : Walls) (s : SessState) (line : String)
    (s' : SessState) (reason : String) (out : List String)
    (h : procCmd walls s line = .crashed s' reason out) :
    s' = s ∧ reason = crashReason s.agent ∧ out = ["crash"] ∧
      do_move_forward walls s.agent = ("crash", s.agent) := by
  unfold procCmd at h
  by_cases hc1 : pyStrip line = "mazeWidth"
  · rw [hc1, if_pos rfl] at h; exact StepOut.noConfusion h
  rw [if_neg hc1] at h
  by_cases hc2 : pyStrip line = "mazeHeight"
  · rw [hc2, if_pos rfl] at h; exact StepOut.noConfusion h
  rw [if_neg hc2] at h
  by_cases hc3 : pyStrip line = "wallFront"
  · rw [hc3, if_pos rfl] at h; exact StepOut.noConfusion h
  rw [if_neg hc3] at h
  by_cases hc4 : pyStrip line = "wallRight"
  · rw [hc4, if_pos rfl] at h; exact StepOut.noConfusion h
  rw [if_neg hc4] at h
  by_cases hc5 : pyStrip line = "wallLeft"
  · rw [hc5, if_pos rfl] at h; exact StepOut.noConfusion h
  rw [if_neg hc5] at h
  by_cases hc6 : pyStartsWith (pyStrip line) "moveForward" = true
  · rw [if_pos hc6] at h
    rcases dmf_cases walls s.agent with hdm | ⟨hack, _⟩
    · rw [hdm] at h
      rw [if_pos rfl] at h
      cases h
      exact ⟨rfl, rfl, rfl, hdm⟩
    · rw [if_neg (by rw [hack]; decide)] at h
      by_cases hcen : CENTER_CELLS.contains
          ((do_move_forward walls s.agent).2.x, (do_move_forward walls s.agent).2.y) = true ∧
          s.reached_center = false
      · rw [if_pos hcen] at h; exact StepOut.noConfusion h
      rw [if_neg hcen] at h
      by_cases hret : ((do_move_forward walls s.agent).2.x,
          (do_move_forward walls s.agent).2.y) = ((0 : Int), (0 : Int)) ∧
          s.reached_center = true ∧ s.reached_start = false
      · rw [if_pos hret] at h; exact StepOut.noConfusion h
      · rw [if_neg hret] at h; exact StepOut.noConfusion h
  rw [if_neg hc6] at h
  by_cases hc7 : pyStrip line = "turnRight"
  · rw [hc7, if_pos rfl] at h; exact StepOut.noConfusion h
  rw [if_neg hc7] at h
  by_cases hc8 : pyStrip line = "turnLeft"
  · rw [hc8, if_pos rfl] at h; exact StepOut.noConfusion h
  rw [if_neg hc8] at h
  by_cases hc9 : pyStrip line = "wasReset"
  · rw [hc9, if_pos rfl] at h; exact StepOut.noConfusion h
  rw [if_neg hc9] at h
  by_cases hc10 : pyStrip line = "ackReset"
  · rw [hc10, if_pos rfl] at h; exact StepOut.noConfusion h
  rw [if_neg hc10] at h
  by_cases hc11 : pyStartsWith (pyStrip line) "setWall" = true ∨ pyStartsWith (pyStrip line) "clearWall" = true ∨
      pyStartsWith (pyStrip line) "setColor" = true ∨ pyStartsWith (pyStrip line) "clearColor" = true ∨
      pyStartsWith (pyStrip line) "clearAllColor" = true ∨ pyStartsWith (pyStrip line) "setText" = true ∨
      pyStartsWith (pyStrip line) "clearText" = true ∨ pyStartsWith (pyStrip line) "clearAllText" = true
  · rw [if_pos hc11] at h; exact StepOut.noConfusion h
  · rw [if_neg hc11] at h; exact StepOut.noConfusion h

/-- Once the step counter is over the budget, the next loop iteration times
the session out whatever input remains, reporting the current counter. -/
theorem simLoop_over (walls : Walls) (s : SessState) (lines : List String)
    (h : MAX_STEPS < s.agent.steps) :
    simLoop walls s lines =
      ({ success := false, steps := s.agent.steps, reason := timeoutReason }, []) := by
  cases lines with
  | nil => unfold simLoop; rw [if_pos h]
  | cons l rest => unfold simLoop; rw [if_pos h]

/-- Strings with different first characters differ. -/
theorem ne_of_head {a b : String} (h : a.data.head? ≠ b.data.head?) : a ≠ b :=
  fun he => h (by rw [he])

/-- The first character of an append is that of a nonempty left part. -/
theorem head_append_left (p q : String) (c : Char) (h : p.data.head? = some c) :
    (p ++ q).data.head? = some c := by
  rw [String.data_append, List.head?_append, h]
  rfl

theorem timeoutReason_head : timeoutReason.data.head? = some 'T' := by
  simp only [timeoutReason]
  repeat first | rfl | apply head_append_left

theorem crashReason_head (a : AgentState) : (crashReason a).data.head? = some 'C' := by
  simp only [crashReason]
  repeat first | rfl | apply head_append_left

theorem crashReason_ne_timeout (a : AgentState) : crashReason a ≠ timeoutReason := by
  apply ne_of_head
  rw [crashReason_head, timeoutReason_head]
  decide

theorem exitReason_ne_timeout (s : SessState) : exitReason s ≠ timeoutReason := by
  have hh : (exitReason s).data.head? = some 'F' ∨ (exitReason s).data.head? = some 'R' ∨
      (exitReason s).data.head? = some 'P' := by
    unfold exitReason
    split
    · left
      repeat first | rfl | apply head_append_left
    · split
      · right; left; rfl
      · right; right; rfl
  apply ne_of_head
  rw [timeoutReason_head]
  rcases hh with hh | hh | hh <;> rw [hh] <;> decide

/-- One unfolding of the session loop over a continuing command. -/
theorem simLoop_cons_cont (walls : Walls) (s : SessState) (l : String) (rest : List String)
    (s' : SessState) (out : List String)
    (hnl : ¬ MAX_STEPS < s.agent.steps) (hp : procCmd walls s l = .cont s' out) :
    simLoop walls s (l :: rest) =
      ((simLoop walls s' rest).1, out ++ (simLoop walls s' rest).2) := by
  conv_lhs => unfold simLoop
  rw [if_neg hnl, hp]

/-- Sessions entered at or under the budget end with a step count of at most
`MAX_STEPS + 1`, and exactly `MAX_STEPS + 1` when they end by timeout. -/
theorem simLoop_boundary (walls : Walls) :
    ∀ (lines : List String) (s : SessState), s.agent.steps ≤ MAX_STEPS →
      (simLoop walls s lines).1.steps ≤ MAX_STEPS + 1 ∧
      ((simLoop walls s lines).1.reason = timeoutReason →
        (simLoop walls s lines).1.steps = MAX_STEPS + 1) := by
  intro lines
  induction lines with
  | nil =>
    intro s hs
    have hnl : ¬ MAX_STEPS < s.agent.steps := Nat.not_lt.mpr hs
    have he : simLoop walls s [] =
        ({ success := s.reached_center && s.reached_start, steps := s.agent.steps,
           reason := exitReason s }, []) := by
      unfold simLoop; rw [if_neg hnl]
    rw [he]
    exact ⟨Nat.le_succ_of_le hs, fun hr => absurd hr (exitReason_ne_timeout s)⟩
  | cons l rest ih =>
    intro s hs
    have hnl : ¬ MAX_STEPS < s.agent.steps := Nat.not_lt.mpr hs
    cases hp : procCmd walls s l with
    | crashed s' reason out =>
      obtain ⟨hs', hr, _, _⟩ := procCmd_crashed_inv walls s l s' reason out hp
      have he : simLoop walls s (l :: rest) =
          ({ success := false, steps := s'.agent.steps, reason := reason }, out) := by
        unfold simLoop; rw [if_neg hnl, hp]
      rw [he, hs', hr]
      exact ⟨Nat.le_succ_of_le hs, fun hr2 => absurd hr2 (crashReason_ne_timeout s.agent)⟩
    | cont s' out =>
      rw [simLoop_cons_cont walls s l rest s' out hnl hp]
      rcases (procCmd_cont_master walls s l s' out hp).1 with hst | hst
      · exact ih s' (by omega)
      · by_cases hle : s'.agent.steps ≤ MAX_STEPS
        · exact ih s' hle
        · have hover : MAX_STEPS < s'.agent.steps := Nat.not_le.mp hle
          rw [simLoop_over walls s' rest hover]
          constructor
          · simp only []
            omega
          · intro
            simp only []
            omega

/-- A `moveForward` whose forward move is blocked is answered by the crash
branch of the dispatcher. -/
theorem procCmd_move_crash (walls : Walls) (s : SessState) (line : String)
    (hmv : pyStartsWith (pyStrip line) "moveForward" = true)
    (hdm : do_move_forward walls s.agent = ("crash", s.agent)) :
    procCmd walls s line = .crashed s (crashReason s.agent) ["crash"] := by
  have h1 : pyStrip line ≠ "mazeWidth" := fun he => by
    rw [he] at hmv; exact absurd hmv (by decide)
  have h2 : pyStrip line ≠ "mazeHeight" := fun he => by
    rw [he] at hmv; exact absurd hmv (by decide)
  have h3 : pyStrip line ≠ "wallFront" := fun he => by
    rw [he] at hmv; exact absurd hmv (by decide)
  have h4 : pyStrip line ≠ "wallRight" := fun he => by
    rw [he] at hmv; exact absurd hmv (by decide)
  have h5 : pyStrip line ≠ "wallLeft" := fun he => by
    rw [he] at hmv; exact absurd hmv (by decide)
  unfold procCmd
  rw [if_neg h1, if_neg h2, if_neg h3, if_neg h4, if_neg h5, if_pos hmv, hdm, if_pos rfl]

/-! ## Round-trip lemmas for save_maze / load_maze -/

theorem loadStep_lookup (d : Walls) (parts : List Int) (a b : Int) :
    loadStep d parts a b =
      if a = (lineKey parts).1 ∧ b = (lineKey parts).2 then some (lineCell parts)
      else d a b := rfl

theorem load_fold_not_mem :
    ∀ (lines : List (List Int)) (d : Walls) (a b : Int),
      (∀ parts ∈ lines, ¬((lineKey parts).1 = a ∧ (lineKey parts).2 = b)) →
      lines.foldl loadStep d a b = d a b := by
  intro lines
  induction lines with
  | nil => intro d a b _; rfl
  | cons p t ih =>
    intro d a b hmem
    have ht : (List.foldl loadStep (loadStep d p) t) a b = (loadStep d p) a b :=
      ih (loadStep d p) a b fun q hq => hmem q (List.mem_cons_of_mem p hq)
    rw [List.foldl_cons, ht, loadStep_lookup, if_neg]
    rintro ⟨ha, hb⟩
    exact hmem p (List.mem_cons_self p t) ⟨ha.symm, hb.symm⟩

theorem load_fold_mem :
    ∀ (lines : List (List Int)) (d : Walls) (parts : List Int),
      parts ∈ lines → (lines.map lineKey).Nodup →
      lines.foldl loadStep d (lineKey parts).1 (lineKey parts).2 = some (lineCell parts) := by
  intro lines
  induction lines with
  | nil => intro d parts h _; cases h
  | cons p t ih =>
    intro d parts hmem hnd
    rw [List.map_cons, List.nodup_cons] at hnd
    rcases List.mem_cons.mp hmem with rfl | hmem'
    · rw [List.foldl_cons,
        load_fold_not_mem t (loadStep d parts) (lineKey parts).1 (lineKey parts).2 ?_,
        loadStep_lookup, if_pos ⟨rfl, rfl⟩]
      rintro q hq ⟨h1, h2⟩
      refine hnd.1 ?_
      have hk : lineKey q = lineKey parts := Prod.ext_iff.mpr ⟨h1, h2⟩
      rw [← hk]
      exact List.mem_map_of_mem lineKey hq
    · rw [List.foldl_cons]
      exact ih (loadStep d p) parts hmem' hnd.2

/-- The keys written by `save_maze` are the grid coordinates in file order. -/
theorem save_keys (horiz vert : Mat) (width height : Nat) :
    (save_maze horiz vert width height).map lineKey =
      (List.range width).flatMap fun (x : Nat) =>
        (List.range height).map fun (y : Nat) => ((x : Int), (y : Int)) := by
  unfold save_maze
  rw [List.map_flatMap]
  congr 1
  funext x
  rw [List.map_map]
  rfl

theorem keyGrid_nodup (width height : Nat) :
    ((List.range width).flatMap fun (x : Nat) =>
      (List.range height).map fun (y : Nat) => ((x : Int), (y : Int))).Nodup := by
  induction width with
  | zero => simp
  | succ w ih =>
    rw [List.range_succ, List.flatMap_append]
    refine List.Nodup.append ih ?_ ?_
    · simp only [List.flatMap_cons, List.flatMap_nil, List.append_nil]
      refine List.Nodup.map ?_ (List.nodup_range height)
      intro a b hab
      have h2 : (a : Int) = (b : Int) := by simpa using congrArg Prod.snd hab
      exact_mod_cast h2
    · intro a ha hb
      rw [List.mem_flatMap] at ha
      obtain ⟨x, hx, hxa⟩ := ha
      rw [List.mem_map] at hxa
      obtain ⟨y, _, rfl⟩ := hxa
      simp only [List.flatMap_cons, List.flatMap_nil, List.append_nil, List.mem_map] at hb
      obtain ⟨y', _, heq⟩ := hb
      have hfst : (w : Int) = (x : Int) := congrArg Prod.fst heq
      have hxw : x = w := by exact_mod_cast hfst.symm
      rw [List.mem_range] at hx
      omega

theorem saveRec_mem (horiz vert : Mat) (width height x y : Nat)
    (hx : x < width) (hy : y < height) :
    saveRec horiz vert width height x y ∈ save_maze horiz vert width height := by
  unfold save_maze
  rw [List.mem_flatMap]
  exact ⟨x, List.mem_range.mpr hx, List.mem_map.mpr ⟨y, List.mem_range.mpr hy, rfl⟩⟩

/-- Reading back a saved maze finds each cell's record. -/
theorem load_save_lookup (horiz vert : Mat) (width height x y : Nat)
    (hx : x < width) (hy : y < height) :
    load_maze (save_maze horiz vert width height) (x : Int) (y : Int) =
      some (lineCell (saveRec horiz vert width height x y)) := by
  have h := load_fold_mem (save_maze horiz vert width height) emptyWalls
    (saveRec horiz vert width height x y)
    (saveRec_mem horiz vert width height x y hx hy)
    (by rw [save_keys]; exact keyGrid_nodup width height)
  exact h

theorem ite_one_zero_ne (c : Prop) [Decidable c] :
    ((if c then (1 : Int) else 0) != 0) = true ↔ c := by
  by_cases h : c
  · simp [h]
  · simp [h]

/-! ## Correctness of the flood fill -/

theorem mset_true_of {v : Mat} {y' x' : Nat} (ny nx : Nat) (h : v y' x' = true) :
    mset v ny nx true y' x' = true := by
  unfold mset
  split
  · rfl
  · exact h

theorem mset_true_inv {v : Mat} {ny nx y' x' : Nat} (h : mset v ny nx true y' x' = true) :
    v y' x' = true ∨ (y' = ny ∧ x' = nx) := by
  unfold mset at h
  split at h
  · rename_i hc
    exact Or.inr hc
  · exact Or.inl h

theorem visCount_le (v : Mat) (width height : Nat) :
    visCount v width height ≤ height * width := by
  unfold visCount
  calc _ ≤ ((Finset.range height) ×ˢ (Finset.range width)).card := Finset.card_filter_le _ _
    _ = height * width := by rw [Finset.card_product, Finset.card_range, Finset.card_range]

theorem visCount_mset {v : Mat} {nx ny width height : Nat}
    (hx : nx < width) (hy : ny < height) (hv : v ny nx = false) :
    visCount (mset v ny nx true) width height = visCount v width height + 1 := by
  unfold visCount
  have hset : (((Finset.range height) ×ˢ (Finset.range width)).filter
      fun p => mset v ny nx true p.1 p.2 = true) =
      insert (ny, nx) (((Finset.range height) ×ˢ (Finset.range width)).filter
        fun p => v p.1 p.2 = true) := by
    ext p
    simp only [Finset.mem_filter, Finset.mem_insert, Finset.mem_product, Finset.mem_range]
    constructor
    · rintro ⟨hp, hm⟩
      rcases mset_true_inv hm with hm | ⟨h1, h2⟩
      · exact Or.inr ⟨hp, hm⟩
      · left
        cases p
        simp_all
    · rintro (rfl | ⟨hp, hm⟩)
      · exact ⟨⟨hy, hx⟩, mset_same v ny nx true⟩
      · exact ⟨hp, mset_true_of ny nx hm⟩
  rw [hset, Finset.card_insert_of_not_mem]
  simp only [Finset.mem_filter, Finset.mem_product, Finset.mem_range, not_and]
  intro _
  simp [hv]

theorem visCount_lt {v : Mat} {nx ny width height : Nat}
    (hx : nx < width) (hy : ny < height) (hv : v ny nx = false) :
    visCount v width height < height * width := by
  have h1 := visCount_mset hx hy hv
  have h2 := visCount_le (mset v ny nx true) width height
  omega

theorem tryMark_vis_mono (s : BfsState) (nx ny : Nat) (c : Prop) [Decidable c]
    {y' x' : Nat} (h : s.visited y' x' = true) :
    (tryMark s nx ny c).visited y' x' = true := by
  unfold tryMark
  split
  · exact mset_true_of ny nx h
  · exact h

theorem tryMark_queue_mono (s : BfsState) (nx ny : Nat) (c : Prop) [Decidable c]
    {p : Nat × Nat} (h : p ∈ s.queue) : p ∈ (tryMark s nx ny c).queue := by
  unfold tryMark
  split
  · exact List.mem_append_left _ h
  · exact h

theorem tryMark_target (s : BfsState) (nx ny : Nat) (c : Prop) [Decidable c] (hc : c) :
    (tryMark s nx ny c).visited ny nx = true := by
  unfold tryMark
  split
  · exact mset_same s.visited ny nx true
  · rename_i hn
    cases hv : s.visited ny nx
    · exact absurd ⟨hc, hv⟩ hn
    · rfl

theorem tryMark_visited_new (s : BfsState) (nx ny : Nat) (c : Prop) [Decidable c]
    {y' x' : Nat} (h : (tryMark s nx ny c).visited y' x' = true) :
    s.visited y' x' = true ∨
      (y' = ny ∧ x' = nx ∧ (nx, ny) ∈ (tryMark s nx ny c).queue ∧ c) := by
  unfold tryMark at h ⊢
  split at h
  · rename_i hcc
    rcases mset_true_inv h with hm | ⟨h1, h2⟩
    · exact Or.inl hm
    · refine Or.inr ⟨h1, h2, ?_, hcc.1⟩
      rw [if_pos hcc]
      exact List.mem_append_right _ (List.mem_singleton.mpr rfl)
  · exact Or.inl h

theorem tryMark_count (s : BfsState) (nx ny : Nat) (c : Prop) [Decidable c]
    (width height : Nat) (hr : c → nx < width ∧ ny < height)
    (hc : s.count = visCount s.visited width height) :
    (tryMark s nx ny c).count = visCount (tryMark s nx ny c).visited width height := by
  unfold tryMark
  split
  · rename_i hcc
    show s.count + 1 = visCount (mset s.visited ny nx true) width height
    rw [visCount_mset (hr hcc.1).1 (hr hcc.1).2 hcc.2, hc]
  · exact hc

theorem tryMark_queue_vis (s : BfsState) (nx ny : Nat) (c : Prop) [Decidable c]
    (h : ∀ p ∈ s.queue, s.visited p.2 p.1 = true) :
    ∀ p ∈ (tryMark s nx ny c).queue, (tryMark s nx ny c).visited p.2 p.1 = true := by
  unfold tryMark
  split
  · intro p hp
    rcases List.mem_append.mp hp with hp | hp
    · exact mset_true_of ny nx (h p hp)
    · rw [List.mem_singleton.mp hp]
      exact mset_same s.visited ny nx true
  · exact h

theorem tryMark_potential (s : BfsState) (nx ny : Nat) (c : Prop) [Decidable c]
    (width height : Nat) (hr : c → nx < width ∧ ny < height) :
    bfsPotential (tryMark s nx ny c) width height ≤ bfsPotential s width height := by
  unfold tryMark bfsPotential
  split
  · rename_i hcc
    obtain ⟨hx, hy⟩ := hr hcc.1
    have hlt := visCount_lt hx hy hcc.2
    show (s.queue ++ [(nx, ny)]).length + (width * height -
        visCount (mset s.visited ny nx true) width height) ≤ _
    rw [visCount_mset hx hy hcc.2, List.length_append, Nat.mul_comm width height]
    simp only [List.length_singleton]
    revert hlt
    generalize height * width = P
    intro hlt
    omega
  · exact Nat.le_refl _

theorem closedAt_mono (horiz vert : Mat) (width height : Nat) {v v' : Mat}
    (hmono : ∀ y x, v y x = true → v' y x = true) {x y : Nat}
    (h : closedAt horiz vert width height v x y) :
    closedAt horiz vert width height v' x y :=
  ⟨fun h1 h2 => hmono _ _ (h.1 h1 h2), fun h1 h2 => hmono _ _ (h.2.1 h1 h2),
   fun h1 h2 => hmono _ _ (h.2.2.1 h1 h2), fun h1 h2 => hmono _ _ (h.2.2.2 h1 h2)⟩

theorem tryMark_pres_range (s : BfsState) (nx ny : Nat) (c : Prop) [Decidable c]
    (width height : Nat) (hr : c → nx < width ∧ ny < height)
    (h : ∀ y' x', s.visited y' x' = true → x' < width ∧ y' < height) :
    ∀ y' x', (tryMark s nx ny c).visited y' x' = true → x' < width ∧ y' < height := by
  intro y' x' hv
  rcases tryMark_visited_new s nx ny c hv with hv | ⟨rfl, rfl, _, hc⟩
  · exact h y' x' hv
  · exact hr hc

theorem tryMark_pres_reach (horiz vert : Mat) (width height : Nat)
    (s : BfsState) (nx ny : Nat) (c : Prop) [Decidable c]
    (hre : c → Reaches horiz vert width height (nx, ny))
    (h : ∀ y' x', s.visited y' x' = true → Reaches horiz vert width height (x', y')) :
    ∀ y' x', (tryMark s nx ny c).visited y' x' = true →
      Reaches horiz vert width height (x', y') := by
  intro y' x' hv
  rcases tryMark_visited_new s nx ny c hv with hv | ⟨rfl, rfl, _, hc⟩
  · exact h y' x' hv
  · exact hre hc

/-- One full iteration of the flood-fill loop preserves the invariant and
strictly decreases the termination measure. -/
theorem bfsProcess_inv (horiz vert : Mat) (width height : Nat) (x y : Nat)
    (rest : List (Nat × Nat)) (s : BfsState)
    (hq : s.queue = (x, y) :: rest)
    (hinv : BfsInv horiz vert width height s) :
    BfsInv horiz vert width height
      (bfsProcess horiz vert width height x y { s with queue := rest }) ∧
    bfsPotential (bfsProcess horiz vert width height x y { s with queue := rest })
        width height + 1 ≤
      bfsPotential s width height := by
  have hxyvis : s.visited y x = true :=
    hinv.queue_vis (x, y) (hq ▸ List.mem_cons_self _ _)
  have hxr := hinv.vis_range y x hxyvis
  have hreach := hinv.vis_reach y x hxyvis
  have hr1 : (y < height - 1 ∧ horiz y x = false) → x < width ∧ y + 1 < height :=
    fun hc => ⟨hxr.1, by omega⟩
  have hr2 : (x < width - 1 ∧ vert y x = false) → x + 1 < width ∧ y < height :=
    fun hc => ⟨by omega, hxr.2⟩
  have hr3 : (0 < y ∧ horiz (y-1) x = false) → x < width ∧ y - 1 < height :=
    fun _ => ⟨hxr.1, by omega⟩
  have hr4 : (0 < x ∧ vert y (x-1) = false) → x - 1 < width ∧ y < height :=
    fun _ => ⟨by omega, hxr.2⟩
  have hre1 : (y < height - 1 ∧ horiz y x = false) →
      Reaches horiz vert width height (x, y + 1) :=
    fun hc => hreach.tail (Adj.north x y (by omega) hc.2)
  have hre2 : (x < width - 1 ∧ vert y x = false) →
      Reaches horiz vert width height (x + 1, y) :=
    fun hc => hreach.tail (Adj.east x y (by omega) hc.2)
  have hre3 : (0 < y ∧ horiz (y-1) x = false) →
      Reaches horiz vert width height (x, y - 1) :=
    fun hc => hreach.tail (Adj.south x y hc.1 hc.2)
  have hre4 : (0 < x ∧ vert y (x-1) = false) →
      Reaches horiz vert width height (x - 1, y) :=
    fun hc => hreach.tail (Adj.west x y hc.1 hc.2)
  set T0 : BfsState := { s with queue := rest } with hT0
  set T1 : BfsState := tryMark T0 x (y+1) (y < height - 1 ∧ horiz y x = false) with hT1
  set T2 : BfsState := tryMark T1 (x+1) y (x < width - 1 ∧ vert y x = false) with hT2
  set T3 : BfsState := tryMark T2 x (y-1) (0 < y ∧ horiz (y-1) x = false) with hT3
  set T4 : BfsState := tryMark T3 (x-1) y (0 < x ∧ vert y (x-1) = false) with hT4
  have hbp : bfsProcess horiz vert width height x y { s with queue := rest } = T4 := rfl
  rw [hbp]
  have hm1 : ∀ y' x', T0.visited y' x' = true → T1.visited y' x' = true :=
    fun y' x' h => tryMark_vis_mono T0 x (y+1) _ h
  have hm2 : ∀ y' x', T1.visited y' x' = true → T2.visited y' x' = true :=
    fun y' x' h => tryMark_vis_mono T1 (x+1) y _ h
  have hm3 : ∀ y' x', T2.visited y' x' = true → T3.visited y' x' = true :=
    fun y' x' h => tryMark_vis_mono T2 x (y-1) _ h
  have hm4 : ∀ y' x', T3.visited y' x' = true → T4.visited y' x' = true :=
    fun y' x' h => tryMark_vis_mono T3 (x-1) y _ h
  have hm14 : ∀ y' x', T1.visited y' x' = true → T4.visited y' x' = true :=
    fun y' x' h => hm4 _ _ (hm3 _ _ (hm2 _ _ h))
  have hm04 : ∀ y' x', T0.visited y' x' = true → T4.visited y' x' = true :=
    fun y' x' h => hm14 _ _ (hm1 _ _ h)
  have hqm1 : ∀ p : Nat × Nat, p ∈ T0.queue → p ∈ T1.queue :=
    fun p h => tryMark_queue_mono T0 x (y+1) _ h
  have hqm2 : ∀ p : Nat × Nat, p ∈ T1.queue → p ∈ T2.queue :=
    fun p h => tryMark_queue_mono T1 (x+1) y _ h
  have hqm3 : ∀ p : Nat × Nat, p ∈ T2.queue → p ∈ T3.queue :=
    fun p h => tryMark_queue_mono T2 x (y-1) _ h
  have hqm4 : ∀ p : Nat × Nat, p ∈ T3.queue → p ∈ T4.queue :=
    fun p h => tryMark_queue_mono T3 (x-1) y _ h
  have hq04 : ∀ p : Nat × Nat, p ∈ T0.queue → p ∈ T4.queue :=
    fun p h => hqm4 _ (hqm3 _ (hqm2 _ (hqm1 _ h)))
  constructor
  · constructor
    · -- count_eq
      have h0 : T0.count = visCount T0.visited width height := hinv.count_eq
      have h1 := tryMark_count T0 x (y+1) _ width height hr1 h0
      have h2 := tryMark_count T1 (x+1) y _ width height hr2 h1
      have h3 := tryMark_count T2 x (y-1) _ width height hr3 h2
      exact tryMark_count T3 (x-1) y _ width height hr4 h3
    · -- vis_range
      have h0 : ∀ y' x', T0.visited y' x' = true → x' < width ∧ y' < height :=
        hinv.vis_range
      have h1 := tryMark_pres_range T0 x (y+1) _ width height hr1 h0
      have h2 := tryMark_pres_range T1 (x+1) y _ width height hr2 h1
      have h3 := tryMark_pres_range T2 x (y-1) _ width height hr3 h2
      exact tryMark_pres_range T3 (x-1) y _ width height hr4 h3
    · -- vis_reach
      have h0 : ∀ y' x', T0.visited y' x' = true →
          Reaches horiz vert width height (x', y') := hinv.vis_reach
      have h1 := tryMark_pres_reach horiz vert width height T0 x (y+1) _ hre1 h0
      have h2 := tryMark_pres_reach horiz vert width height T1 (x+1) y _ hre2 h1
      have h3 := tryMark_pres_reach horiz vert width height T2 x (y-1) _ hre3 h2
      exact tryMark_pres_reach horiz vert width height T3 (x-1) y _ hre4 h3
    · -- queue_vis
      have h0 : ∀ p ∈ T0.queue, T0.visited p.2 p.1 = true :=
        fun p hp => hinv.queue_vis p (hq ▸ List.mem_cons_of_mem _ hp)
      have h1 := tryMark_queue_vis T0 x (y+1) (y < height - 1 ∧ horiz y x = false) h0
      have h2 := tryMark_queue_vis T1 (x+1) y (x < width - 1 ∧ vert y x = false) h1
      have h3 := tryMark_queue_vis T2 x (y-1) (0 < y ∧ horiz (y-1) x = false) h2
      exact tryMark_queue_vis T3 (x-1) y (0 < x ∧ vert y (x-1) = false) h3
    · -- processed
      intro y' x' hvis
      rcases tryMark_visited_new T3 (x-1) y (0 < x ∧ vert y (x-1) = false) hvis
        with hv3 | hnew4
      · rcases tryMark_visited_new T2 x (y-1) (0 < y ∧ horiz (y-1) x = false) hv3
          with hv2 | hnew3
        · rcases tryMark_visited_new T1 (x+1) y (x < width - 1 ∧ vert y x = false) hv2
            with hv1 | hnew2
          · rcases tryMark_visited_new T0 x (y+1) (y < height - 1 ∧ horiz y x = false) hv1
              with hv0 | hnew1
            · rcases hinv.processed y' x' hv0 with hmem | hcl
              · rw [hq] at hmem
                rcases List.mem_cons.mp hmem with heq | hmem'
                · injection heq with heq1 heq2
                  rw [heq1, heq2]
                  refine Or.inr ⟨?_, ?_, ?_, ?_⟩
                  · intro hh hw
                    exact hm14 _ _
                      (tryMark_target T0 x (y+1) (y < height - 1 ∧ horiz y x = false) ⟨hh, hw⟩)
                  · intro hh hw
                    exact hm4 _ _ (hm3 _ _
                      (tryMark_target T1 (x+1) y (x < width - 1 ∧ vert y x = false) ⟨hh, hw⟩))
                  · intro hh hw
                    exact hm4 _ _
                      (tryMark_target T2 x (y-1) (0 < y ∧ horiz (y-1) x = false) ⟨hh, hw⟩)
                  · intro hh hw
                    exact tryMark_target T3 (x-1) y (0 < x ∧ vert y (x-1) = false) ⟨hh, hw⟩
                · exact Or.inl (hq04 _ hmem')
              · exact Or.inr (closedAt_mono horiz vert width height hm04 hcl)
            · obtain ⟨rfl, rfl, hqm, -⟩ := hnew1
              exact Or.inl (hqm4 _ (hqm3 _ (hqm2 _ hqm)))
          · obtain ⟨rfl, rfl, hqm, -⟩ := hnew2
            exact Or.inl (hqm4 _ (hqm3 _ hqm))
        · obtain ⟨rfl, rfl, hqm, -⟩ := hnew3
          exact Or.inl (hqm4 _ hqm)
      · obtain ⟨rfl, rfl, hqm, -⟩ := hnew4
        exact Or.inl hqm
  · -- potential
    have hp1 := tryMark_potential T0 x (y+1) (y < height - 1 ∧ horiz y x = false)
      width height hr1
    have hp2 := tryMark_potential T1 (x+1) y (x < width - 1 ∧ vert y x = false)
      width height hr2
    have hp3 := tryMark_potential T2 x (y-1) (0 < y ∧ horiz (y-1) x = false)
      width height hr3
    have hp4 := tryMark_potential T3 (x-1) y (0 < x ∧ vert y (x-1) = false)
      width height hr4
    rw [← hT1] at hp1
    rw [← hT2] at hp2
    rw [← hT3] at hp3
    rw [← hT4] at hp4
    have hstep : bfsPotential s width height = bfsPotential T0 width height + 1 := by
      have hq0 : T0.queue = rest := rfl
      have hv0 : visCount T0.visited width height = visCount s.visited width height := rfl
      unfold bfsPotential
      rw [hq, hq0, hv0, List.length_cons]
      omega
    omega

theorem bfsProcess_vis_mono (horiz vert : Mat) (width height x y : Nat) (s : BfsState)
    {y' x' : Nat} (h : s.visited y' x' = true) :
    (bfsProcess horiz vert width height x y s).visited y' x' = true := by
  unfold bfsProcess
  exact tryMark_vis_mono _ _ _ _ (tryMark_vis_mono _ _ _ _
    (tryMark_vis_mono _ _ _ _ (tryMark_vis_mono _ _ _ _ h)))

theorem bfsRun_inv (horiz vert : Mat) (width height : Nat) :
    ∀ (fuel : Nat) (s : BfsState), BfsInv horiz vert width height s →
      BfsInv horiz vert width height (bfsRun horiz vert width height fuel s) := by
  intro fuel
  induction fuel with
  | zero => intro s h; exact h
  | succ n ih =>
    intro s h
    cases hq : s.queue with
    | nil =>
      have heq : bfsRun horiz vert width height (n+1) s = s := by
        conv_lhs => unfold bfsRun
        rw [hq]
      rw [heq]
      exact h
    | cons p rest =>
      obtain ⟨x, y⟩ := p
      have heq : bfsRun horiz vert width height (n+1) s =
          bfsRun horiz vert width height n
            (bfsProcess horiz vert width height x y { s with queue := rest }) := by
        conv_lhs => unfold bfsRun
        rw [hq]
      rw [heq]
      exact ih _ (bfsProcess_inv horiz vert width height x y rest s hq h).1

theorem bfsRun_empty (horiz vert : Mat) (width height : Nat) :
    ∀ (fuel : Nat) (s : BfsState), BfsInv horiz vert width height s →
      bfsPotential s width height ≤ fuel →
      (bfsRun horiz vert width height fuel s).queue = [] := by
  intro fuel
  induction fuel with
  | zero =>
    intro s _ hpot
    have hlen : s.queue.length = 0 := by
      unfold bfsPotential at hpot
      omega
    exact List.eq_nil_of_length_eq_zero hlen
  | succ n ih =>
    intro s hinv hpot
    cases hq : s.queue with
    | nil =>
      have heq : bfsRun horiz vert width height (n+1) s = s := by
        conv_lhs => unfold bfsRun
        rw [hq]
      rw [heq]
      exact hq
    | cons p rest =>
      obtain ⟨x, y⟩ := p
      have heq : bfsRun horiz vert width height (n+1) s =
          bfsRun horiz vert width height n
            (bfsProcess horiz vert width height x y { s with queue := rest }) := by
        conv_lhs => unfold bfsRun
        rw [hq]
      rw [heq]
      obtain ⟨hinv', hpot'⟩ := bfsProcess_inv horiz vert width height x y rest s hq hinv
      exact ih _ hinv' (by omega)

theorem bfsRun_vis_mono (horiz vert : Mat) (width height : Nat) :
    ∀ (fuel : Nat) (s : BfsState) (y x : Nat), s.visited y x = true →
      (bfsRun horiz vert width height fuel s).visited y x = true := by
  intro fuel
  induction fuel with
  | zero => intro s y x h; exact h
  | succ n ih =>
    intro s y x h
    cases hq : s.queue with
    | nil =>
      have heq : bfsRun horiz vert width height (n+1) s = s := by
        conv_lhs => unfold bfsRun
        rw [hq]
      rw [heq]
      exact h
    | cons p rest =>
      obtain ⟨px, py⟩ := p
      have heq : bfsRun horiz vert width height (n+1) s =
          bfsRun horiz vert width height n
            (bfsProcess horiz vert width height px py { s with queue := rest }) := by
        conv_lhs => unfold bfsRun
        rw [hq]
      rw [heq]
      exact ih _ y x (bfsProcess_vis_mono horiz vert width height px py _ h)

theorem bfsInit_inv (horiz vert : Mat) (width height : Nat)
    (hw : 0 < width) (hh : 0 < height) :
    BfsInv horiz vert width height bfsInit := by
  constructor
  · have hset : (((Finset.range height) ×ˢ (Finset.range width)).filter
        fun p => (mset (fun _ _ => false) 0 0 true) p.1 p.2 = true) = {((0 : Nat), (0 : Nat))} := by
      ext p
      simp only [Finset.mem_filter, Finset.mem_product, Finset.mem_range, Finset.mem_singleton]
      constructor
      · rintro ⟨_, hm⟩
        rcases mset_true_inv hm with hm | ⟨h1, h2⟩
        · exact Bool.noConfusion hm
        · obtain ⟨a, b⟩ := p
          simp_all
      · rintro rfl
        exact ⟨⟨hh, hw⟩, mset_same _ 0 0 true⟩
    show (1 : Nat) = visCount bfsInit.visited width height
    unfold visCount
    rw [show bfsInit.visited = mset (fun _ _ => false) 0 0 true from rfl, hset]
    rfl
  · intro y x h
    have h' : mset (fun _ _ => false) 0 0 true y x = true := h
    rcases mset_true_inv h' with h2 | ⟨rfl, rfl⟩
    · exact Bool.noConfusion h2
    · exact ⟨hw, hh⟩
  · intro y x h
    have h' : mset (fun _ _ => false) 0 0 true y x = true := h
    rcases mset_true_inv h' with h2 | ⟨rfl, rfl⟩
    · exact Bool.noConfusion h2
    · exact Relation.ReflTransGen.refl
  · intro p hp
    have hp' : p ∈ [((0 : Nat), (0 : Nat))] := hp
    rw [List.mem_singleton.mp hp']
    exact mset_same (fun _ _ => false) 0 0 true
  · intro y x h
    have h' : mset (fun _ _ => false) 0 0 true y x = true := h
    rcases mset_true_inv h' with h2 | ⟨rfl, rfl⟩
    · exact Bool.noConfusion h2
    · exact Or.inl (List.mem_singleton.mpr rfl)

/-- Full correctness of `is_fully_connected`: it answers `true` exactly when
every cell of the grid is reachable from `(0,0)` through absent walls. -/
theorem bfs_correct (horiz vert : Mat) (width height : Nat)
    (hw : 0 < width) (hh : 0 < height) :
    is_fully_connected horiz vert width height = true ↔
      ∀ x, x < width → ∀ y, y < height → Reaches horiz vert width height (x, y) := by
  have hinv0 := bfsInit_inv horiz vert width height hw hh
  have hvc0 : visCount bfsInit.visited width height = 1 := hinv0.count_eq.symm
  have hpot0 : bfsPotential bfsInit width height ≤ width * height := by
    have hpos : 0 < width * height := Nat.mul_pos hw hh
    show bfsInit.queue.length + (width * height - visCount bfsInit.visited width height) ≤ _
    rw [hvc0]
    show 1 + (width * height - 1) ≤ width * height
    omega
  have hFinv : BfsInv horiz vert width height
      (bfsRun horiz vert width height (width * height) bfsInit) :=
    bfsRun_inv horiz vert width height (width * height) bfsInit hinv0
  have hFq : (bfsRun horiz vert width height (width * height) bfsInit).queue = [] :=
    bfsRun_empty horiz vert width height (width * height) bfsInit hinv0 hpot0
  have hvis00 : (bfsRun horiz vert width height (width * height) bfsInit).visited 0 0 = true :=
    bfsRun_vis_mono horiz vert width height (width * height) bfsInit 0 0
      (mset_same (fun _ _ => false) 0 0 true)
  have hclosed : ∀ y x,
      (bfsRun horiz vert width height (width * height) bfsInit).visited y x = true →
      closedAt horiz vert width height
        (bfsRun horiz vert width height (width * height) bfsInit).visited x y := by
    intro y x h
    rcases hFinv.processed y x h with hm | hc
    · rw [hFq] at hm
      cases hm
    · exact hc
  have hreachvis : ∀ c : Nat × Nat, Reaches horiz vert width height c →
      (bfsRun horiz vert width height (width * height) bfsInit).visited c.2 c.1 = true := by
    intro c hr
    induction hr with
    | refl => exact hvis00
    | tail hab hbc ih =>
      cases hbc with
      | north x y hy hw' => exact (hclosed y x ih).1 (by omega) hw'
      | east x y hx hw' => exact (hclosed y x ih).2.1 (by omega) hw'
      | south x y hy hw' => exact (hclosed y x ih).2.2.1 hy hw'
      | west x y hx hw' => exact (hclosed y x ih).2.2.2 hx hw'
  constructor
  · intro hfc x hx y hy
    have hfc' : ((bfsRun horiz vert width height (width * height) bfsInit).count ==
        width * height) = true := hfc
    have hcount : (bfsRun horiz vert width height (width * height) bfsInit).count =
        width * height := by simpa using hfc'
    have hvc : visCount (bfsRun horiz vert width height (width * height) bfsInit).visited
        width height = width * height := by
      rw [← hFinv.count_eq]
      exact hcount
    have hsub : (((Finset.range height) ×ˢ (Finset.range width)).filter
        fun p => (bfsRun horiz vert width height (width * height) bfsInit).visited p.1 p.2 =
          true) = (Finset.range height) ×ˢ (Finset.range width) := by
      apply Finset.eq_of_subset_of_card_le (Finset.filter_subset _ _)
      have hcard : (((Finset.range height) ×ˢ (Finset.range width)).filter
          fun p => (bfsRun horiz vert width height (width * height) bfsInit).visited p.1 p.2 =
            true).card = width * height := hvc
      rw [hcard, Finset.card_product, Finset.card_range, Finset.card_range, Nat.mul_comm]
    have hvisxy : (bfsRun horiz vert width height (width * height) bfsInit).visited y x =
        true := by
      have hmem : ((y, x) : Nat × Nat) ∈ (Finset.range height) ×ˢ (Finset.range width) :=
        Finset.mem_product.mpr ⟨Finset.mem_range.mpr hy, Finset.mem_range.mpr hx⟩
      rw [← hsub] at hmem
      exact (Finset.mem_filter.mp hmem).2
    exact hFinv.vis_reach y x hvisxy
  · intro hall
    have hsub : (((Finset.range height) ×ˢ (Finset.range width)).filter
        fun p => (bfsRun horiz vert width height (width * height) bfsInit).visited p.1 p.2 =
          true) = (Finset.range height) ×ˢ (Finset.range width) := by
      apply Finset.filter_true_of_mem
      intro p hp
      obtain ⟨hpy, hpx⟩ := Finset.mem_product.mp hp
      exact hreachvis (p.2, p.1)
        (hall p.2 (Finset.mem_range.mp hpx) p.1 (Finset.mem_range.mp hpy))
    have hvc : visCount (bfsRun horiz vert width height (width * height) bfsInit).visited
        width height = height * width := by
      show (((Finset.range height) ×ˢ (Finset.range width)).filter
        fun p => (bfsRun horiz vert width height (width * height) bfsInit).visited p.1 p.2 =
          true).card = height * width
      rw [hsub, Finset.card_product, Finset.card_range, Finset.card_range]
    show ((bfsRun horiz vert width height (width * height) bfsInit).count ==
      width * height) = true
    have hcount : (bfsRun horiz vert width height (width * height) bfsInit).count =
        width * height := by
      rw [hFinv.count_eq, hvc, Nat.mul_comm]
    rw [hcount]
    simp

/-! ## Prim phase lemmas -/

theorem mset_false_of {v : Mat} {y' x' : Nat} (ny nx : Nat) (h : v y' x' = false) :
    mset v ny nx false y' x' = false := by
  unfold mset
  split
  · rfl
  · exact h

theorem mset_false_inv {v : Mat} {ny nx y' x' : Nat}
    (h : mset v ny nx false y' x' = false) : v y' x' = false ∨ (y' = ny ∧ x' = nx) := by
  unfold mset at h
  split at h
  · rename_i hc
    exact Or.inr hc
  · exact Or.inl h

theorem falseCount_mset {m : Mat} {nx ny width height : Nat}
    (hx : nx < width) (hy : ny < height) (hv : m ny nx = true) :
    falseCount (mset m ny nx false) width height = falseCount m width height + 1 := by
  unfold falseCount
  have hset : (((Finset.range height) ×ˢ (Finset.range width)).filter
      fun p => mset m ny nx false p.1 p.2 = false) =
      insert (ny, nx) (((Finset.range height) ×ˢ (Finset.range width)).filter
        fun p => m p.1 p.2 = false) := by
    ext p
    simp only [Finset.mem_filter, Finset.mem_insert, Finset.mem_product, Finset.mem_range]
    constructor
    · rintro ⟨hp, hm⟩
      rcases mset_false_inv hm with hm | ⟨h1, h2⟩
      · exact Or.inr ⟨hp, hm⟩
      · left
        cases p
        simp_all
    · rintro (rfl | ⟨hp, hm⟩)
      · exact ⟨⟨hy, hx⟩, mset_same m ny nx false⟩
      · exact ⟨hp, mset_false_of ny nx hm⟩
  rw [hset, Finset.card_insert_of_not_mem]
  simp only [Finset.mem_filter, Finset.mem_product, Finset.mem_range, not_and]
  intro _
  simp [hv]

theorem falseCount_allTrue (width height : Nat) :
    falseCount (fun _ _ => true) width height = 0 := by
  unfold falseCount
  rw [Finset.card_eq_zero]
  apply Finset.filter_false_of_mem
  intro p _
  simp

theorem visCount_eq_total {v : Mat} {width height : Nat}
    (hall : ∀ y x, y < height → x < width → v y x = true) :
    visCount v width height = width * height := by
  unfold visCount
  rw [Finset.filter_true_of_mem, Finset.card_product, Finset.card_range, Finset.card_range,
    Nat.mul_comm]
  intro p hp
  obtain ⟨h1, h2⟩ := Finset.mem_product.mp hp
  exact hall p.1 p.2 (Finset.mem_range.mp h1) (Finset.mem_range.mp h2)

theorem mem_ite_append {l : List Cand} {a : Cand} (c : Prop) [Decidable c]
    (b : List Cand) (h : a ∈ l) : a ∈ (if c then l ++ b else l) := by
  split
  · exact List.mem_append_left _ h
  · exact h

theorem mem_ite_append_inv {l b : List Cand} {a : Cand} {c : Prop} [Decidable c]
    (h : a ∈ (if c then l ++ b else l)) : a ∈ l ∨ (c ∧ a ∈ b) := by
  split at h
  · rename_i hc
    rcases List.mem_append.mp h with h | h
    · exact Or.inl h
    · exact Or.inr ⟨hc, h⟩
  · exact Or.inl h

theorem add_walls_subset (width height x y : Nat) (cw : List Cand) {a : Cand}
    (h : a ∈ cw) : a ∈ add_walls width height x y cw := by
  unfold add_walls
  exact mem_ite_append _ _ (mem_ite_append _ _ (mem_ite_append _ _ (mem_ite_append _ _ h)))

theorem add_walls_mem_w (width height x y : Nat) (cw : List Cand) (h : 0 < x) :
    (⟨x-1, y, x, y, 'v'⟩ : Cand) ∈ add_walls width height x y cw := by
  unfold add_walls
  apply mem_ite_append
  apply mem_ite_append
  apply mem_ite_append
  rw [if_pos h]
  exact List.mem_append_right _ (List.mem_singleton.mpr rfl)

theorem add_walls_mem_e (width height x y : Nat) (cw : List Cand) (h : x < width - 1) :
    (⟨x, y, x+1, y, 'v'⟩ : Cand) ∈ add_walls width height x y cw := by
  unfold add_walls
  apply mem_ite_append
  apply mem_ite_append
  rw [if_pos h]
  exact List.mem_append_right _ (List.mem_singleton.mpr rfl)

theorem add_walls_mem_s (width height x y : Nat) (cw : List Cand) (h : 0 < y) :
    (⟨x, y-1, x, y, 'h'⟩ : Cand) ∈ add_walls width height x y cw := by
  unfold add_walls
  apply mem_ite_append
  rw [if_pos h]
  exact List.mem_append_right _ (List.mem_singleton.mpr rfl)

theorem add_walls_mem_n (width height x y : Nat) (cw : List Cand) (h : y < height - 1) :
    (⟨x, y, x, y+1, 'h'⟩ : Cand) ∈ add_walls width height x y cw := by
  unfold add_walls
  dsimp only
  rw [if_pos h]
  exact List.mem_append_right _ (List.mem_singleton.mpr rfl)

theorem add_walls_range (width height x y : Nat) (cw : List Cand)
    (hx : x < width) (hy : y < height) :
    ∀ c ∈ add_walls width height x y cw, c ∈ cw ∨ candOK width height c := by
  intro c hc
  unfold add_walls at hc
  rcases mem_ite_append_inv hc with hc | ⟨hg, hb⟩
  · rcases mem_ite_append_inv hc with hc | ⟨hg, hb⟩
    · rcases mem_ite_append_inv hc with hc | ⟨hg, hb⟩
      · rcases mem_ite_append_inv hc with hc | ⟨hg, hb⟩
        · exact Or.inl hc
        · rw [List.mem_singleton.mp hb]
          refine Or.inr (Or.inl ⟨rfl, ?_, rfl, ?_, hy⟩)
          · show x = (x - 1) + 1
            omega
          · show x < width
            omega
      · rw [List.mem_singleton.mp hb]
        refine Or.inr (Or.inl ⟨rfl, rfl, rfl, ?_, hy⟩)
        show x + 1 < width
        omega
    · rw [List.mem_singleton.mp hb]
      refine Or.inr (Or.inr ⟨rfl, rfl, ?_, hx, ?_⟩)
      · show y = (y - 1) + 1
        omega
      · show y < height
        omega
  · rw [List.mem_singleton.mp hb]
    refine Or.inr (Or.inr ⟨rfl, rfl, rfl, hx, ?_⟩)
    show y + 1 < height
    omega

theorem add_walls_length (width height x y : Nat) (cw : List Cand) :
    (add_walls width height x y cw).length ≤ cw.length + 4 := by
  unfold add_walls
  dsimp only
  split <;> split <;> split <;> split <;>
    simp_arith [List.length_append]

theorem getD_mem {α : Type} (d : α) : ∀ (l : List α) (i : Nat), i < l.length →
    l.getD i d ∈ l := by
  intro l
  induction l with
  | nil => intro i hi; cases hi
  | cons b t ih =>
    intro i hi
    cases i with
    | zero => exact List.mem_cons_self _ _
    | succ j =>
      exact List.mem_cons_of_mem _ (ih j (by simpa using hi))

theorem mem_eraseIdx_of_ne {α : Type} (d : α) : ∀ (l : List α) (i : Nat) (a : α),
    a ∈ l → a ≠ l.getD i d → a ∈ l.eraseIdx i := by
  intro l
  induction l with
  | nil => intro i a ha; cases ha
  | cons b t ih =>
    intro i a ha hne
    cases i with
    | zero =>
      rcases List.mem_cons.mp ha with rfl | h
      · exact absurd rfl hne
      · exact h
    | succ j =>
      rcases List.mem_cons.mp ha with rfl | h
      · exact List.mem_cons_self _ _
      · exact List.mem_cons_of_mem _ (ih j a h hne)

theorem adj_mono {horiz vert horiz' vert' : Mat} {width height : Nat}
    (hh : ∀ y x, horiz y x = false → horiz' y x = false)
    (hv : ∀ y x, vert y x = false → vert' y x = false)
    {a b : Nat × Nat} (hadj : Adj horiz vert width height a b) :
    Adj horiz' vert' width height a b := by
  cases hadj with
  | north x y h1 h2 => exact Adj.north x y h1 (hh _ _ h2)
  | east x y h1 h2 => exact Adj.east x y h1 (hv _ _ h2)
  | south x y h1 h2 => exact Adj.south x y h1 (hh _ _ h2)
  | west x y h1 h2 => exact Adj.west x y h1 (hv _ _ h2)

theorem reaches_mono {horiz vert horiz' vert' : Mat} {width height : Nat}
    (hh : ∀ y x, horiz y x = false → horiz' y x = false)
    (hv : ∀ y x, vert y x = false → vert' y x = false)
    {c : Nat × Nat} (hr : Reaches horiz vert width height c) :
    Reaches horiz' vert' width height c := by
  induction hr with
  | refl => exact Relation.ReflTransGen.refl
  | tail hab hbc ih => exact ih.tail (adj_mono hh hv hbc)

theorem eraseIdx_sub {α : Type} : ∀ (l : List α) (i : Nat) (a : α),
    a ∈ l.eraseIdx i → a ∈ l := by
  intro l
  induction l with
  | nil => intro i a ha; cases i <;> cases ha
  | cons b t ih =>
    intro i a ha
    cases i with
    | zero => exact List.mem_cons_of_mem _ ha
    | succ j =>
      rcases List.mem_cons.mp ha with rfl | h
      · exact List.mem_cons_self _ _
      · exact List.mem_cons_of_mem _ (ih j a h)

/-- After marking `(nx, ny)` seen and replacing the popped candidate by the
new cell's walls, every vertical frontier wall is still on the list. -/
theorem frontier_v_step (width height : Nat) (seen : Mat) (cands : List Cand) (i nx ny : Nat)
    (hfv : ∀ x y, x + 1 < width → y < height → ¬(seen y x = seen y (x+1)) →
      (⟨x, y, x+1, y, 'v'⟩ : Cand) ∈ cands)
    (hne : ∀ x y, x + 1 < width → y < height →
      ¬(mset seen ny nx true y x = mset seen ny nx true y (x+1)) →
      (⟨x, y, x+1, y, 'v'⟩ : Cand) ≠ cands.getD i ⟨0, 0, 0, 0, 'v'⟩) :
    ∀ x y, x + 1 < width → y < height →
      ¬(mset seen ny nx true y x = mset seen ny nx true y (x+1)) →
      (⟨x, y, x+1, y, 'v'⟩ : Cand) ∈ add_walls width height nx ny (cands.eraseIdx i) := by
  intro x y hx hy hdiff
  by_cases hA : x = nx ∧ y = ny
  · obtain ⟨rfl, rfl⟩ := hA
    exact add_walls_mem_e width height x y _ (by omega)
  · by_cases hB : x + 1 = nx ∧ y = ny
    · obtain ⟨hBx, rfl⟩ := hB
      have heq : (⟨x, y, x+1, y, 'v'⟩ : Cand) = ⟨nx - 1, y, nx, y, 'v'⟩ := by
        rw [← hBx]
        have hxx : x = x + 1 - 1 := by omega
        exact congrArg (fun z => (⟨z, y, x+1, y, 'v'⟩ : Cand)) hxx
      rw [heq]
      exact add_walls_mem_w width height nx y _ (by omega)
    · have hnA : ¬(y = ny ∧ x = nx) := fun ⟨h1, h2⟩ => hA ⟨h2, h1⟩
      have hnB : ¬(y = ny ∧ x + 1 = nx) := fun ⟨h1, h2⟩ => hB ⟨h2, h1⟩
      have hdiff' : ¬(seen y x = seen y (x+1)) := by
        rwa [mset_other seen ny nx true hnA, mset_other seen ny nx true hnB] at hdiff
      exact add_walls_subset width height nx ny _
        (mem_eraseIdx_of_ne _ cands i _ (hfv x y hx hy hdiff') (hne x y hx hy hdiff))

/-- The horizontal analogue of `frontier_v_step`. -/
theorem frontier_h_step (width height : Nat) (seen : Mat) (cands : List Cand) (i nx ny : Nat)
    (hfh : ∀ x y, x < width → y + 1 < height → ¬(seen y x = seen (y+1) x) →
      (⟨x, y, x, y+1, 'h'⟩ : Cand) ∈ cands)
    (hne : ∀ x y, x < width → y + 1 < height →
      ¬(mset seen ny nx true y x = mset seen ny nx true (y+1) x) →
      (⟨x, y, x, y+1, 'h'⟩ : Cand) ≠ cands.getD i ⟨0, 0, 0, 0, 'v'⟩) :
    ∀ x y, x < width → y + 1 < height →
      ¬(mset seen ny nx true y x = mset seen ny nx true (y+1) x) →
      (⟨x, y, x, y+1, 'h'⟩ : Cand) ∈ add_walls width height nx ny (cands.eraseIdx i) := by
  intro x y hx hy hdiff
  by_cases hA : x = nx ∧ y = ny
  · obtain ⟨rfl, rfl⟩ := hA
    exact add_walls_mem_n width height x y _ (by omega)
  · by_cases hB : x = nx ∧ y + 1 = ny
    · obtain ⟨rfl, hBy⟩ := hB
      have heq : (⟨x, y, x, y+1, 'h'⟩ : Cand) = ⟨x, ny - 1, x, ny, 'h'⟩ := by
        rw [← hBy]
        have hyy : y = y + 1 - 1 := by omega
        exact congrArg (fun z => (⟨x, z, x, y+1, 'h'⟩ : Cand)) hyy
      rw [heq]
      exact add_walls_mem_s width height x ny _ (by omega)
    · have hnA : ¬(y = ny ∧ x = nx) := fun ⟨h1, h2⟩ => hA ⟨h2, h1⟩
      have hnB : ¬(y + 1 = ny ∧ x = nx) := fun ⟨h1, h2⟩ => hB ⟨h2, h1⟩
      have hdiff' : ¬(seen y x = seen (y+1) x) := by
        rwa [mset_other seen ny nx true hnA, mset_other seen ny nx true hnB] at hdiff
      exact add_walls_subset width height nx ny _
        (mem_eraseIdx_of_ne _ cands i _ (hfh x y hx hy hdiff') (hne x y hx hy hdiff))

/-- Knocking down the vertical wall `vert[y1][x1]` whose right cell
`(x1+1, y1)` is seen and whose left cell `(x1, y1)` is new, marking the new
cell seen and replacing the popped candidate by the new cell's walls,
preserves the Prim invariant. -/
theorem knock_v_a (width height : Nat) (s : PrimState) (i : Nat)
    (x1 y1 : Nat) (hx2 : x1 + 1 < width) (hy1 : y1 < height)
    (hnseen : s.seen y1 x1 = false) (hsseen : s.seen y1 (x1+1) = true)
    (hc_eq : s.cands.getD i ⟨0, 0, 0, 0, 'v'⟩ = ⟨x1, y1, x1+1, y1, 'v'⟩)
    (hinv : PrimInv width height s) (rand' : Rand) :
    PrimInv width height
      { horiz := s.horiz, vert := mset s.vert y1 x1 false,
        seen := mset s.seen y1 x1 true,
        cands := add_walls width height x1 y1 (s.cands.eraseIdx i),
        rand := rand' } := by
  have hx1 : x1 < width := by omega
  have hvert_true : s.vert y1 x1 = true := by
    cases hv : s.vert y1 x1
    · exfalso
      rw [(hinv.vfalse_seen y1 x1 hv).1] at hnseen
      exact Bool.noConfusion hnseen
    · rfl
  have hmono : ∀ c', Reaches s.horiz s.vert width height c' →
      Reaches s.horiz (mset s.vert y1 x1 false) width height c' :=
    fun c' => reaches_mono (fun _ _ hf => hf) (fun _ _ hf => mset_false_of _ _ hf)
  constructor
  · exact mset_true_of _ _ hinv.seen00
  · intro y x h
    rcases mset_true_inv h with hold | ⟨hq1, hq2⟩
    · exact hinv.seen_range y x hold
    · rw [hq1, hq2]
      exact ⟨hx1, hy1⟩
  · intro c hc
    rcases add_walls_range width height x1 y1 _ hx1 hy1 c hc with h | h
    · exact hinv.cand_range c (eraseIdx_sub _ _ _ h)
    · exact h
  · intro y x h
    rcases mset_true_inv h with hold | ⟨hq1, hq2⟩
    · exact hmono _ (hinv.seen_reach y x hold)
    · rw [hq1, hq2]
      have hs := hmono _ (hinv.seen_reach y1 (x1+1) hsseen)
      have hadj : Adj s.horiz (mset s.vert y1 x1 false) width height
          (x1+1, y1) (x1+1-1, y1) :=
        Adj.west (x1+1) y1 (by omega)
          (by rw [show x1 + 1 - 1 = x1 from by omega]; exact mset_same s.vert y1 x1 false)
      have hres := hs.tail hadj
      rwa [show x1 + 1 - 1 = x1 from by omega] at hres
  · show falseCount s.horiz width height +
      falseCount (mset s.vert y1 x1 false) width height + 1 =
      visCount (mset s.seen y1 x1 true) width height
    rw [falseCount_mset hx1 hy1 hvert_true, visCount_mset hx1 hy1 hnseen]
    have hc := hinv.count_eq
    unfold falseTotal at hc
    omega
  · intro y x hf
    have hb := hinv.hfalse_seen y x hf
    exact ⟨mset_true_of _ _ hb.1, mset_true_of _ _ hb.2⟩
  · intro y x hf
    rcases mset_false_inv hf with hold | ⟨hq1, hq2⟩
    · have hb := hinv.vfalse_seen y x hold
      exact ⟨mset_true_of _ _ hb.1, mset_true_of _ _ hb.2⟩
    · rw [hq1, hq2]
      refine ⟨mset_same s.seen y1 x1 true, ?_⟩
      show mset s.seen y1 x1 true y1 (x1+1) = true
      rw [mset_other s.seen y1 x1 true (by omega : ¬(y1 = y1 ∧ x1 + 1 = x1))]
      exact hsseen
  · apply frontier_v_step width height s.seen s.cands i x1 y1 hinv.frontier_v
    intro x y hx hy hdiff heq
    rw [hc_eq] at heq
    injection heq with he1 he2 he3 he4 he5
    rw [he1, he2] at hdiff
    apply hdiff
    rw [mset_same s.seen y1 x1 true,
      mset_other s.seen y1 x1 true (by omega : ¬(y1 = y1 ∧ x1 + 1 = x1))]
    exact hsseen.symm
  · apply frontier_h_step width height s.seen s.cands i x1 y1 hinv.frontier_h
    intro x y hx hy hdiff heq
    rw [hc_eq] at heq
    injection heq with he1 he2 he3 he4 he5
    exact absurd he5 (by decide)

/-- As `knock_v_a`, but the left cell `(x1, y1)` is seen and the right cell
`(x1+1, y1)` is new. -/
theorem knock_v_b (width height : Nat) (s : PrimState) (i : Nat)
    (x1 y1 : Nat) (hx2 : x1 + 1 < width) (hy1 : y1 < height)
    (hnseen : s.seen y1 (x1+1) = false) (hsseen : s.seen y1 x1 = true)
    (hc_eq : s.cands.getD i ⟨0, 0, 0, 0, 'v'⟩ = ⟨x1, y1, x1+1, y1, 'v'⟩)
    (hinv : PrimInv width height s) (rand' : Rand) :
    PrimInv width height
      { horiz := s.horiz, vert := mset s.vert y1 x1 false,
        seen := mset s.seen y1 (x1+1) true,
        cands := add_walls width height (x1+1) y1 (s.cands.eraseIdx i),
        rand := rand' } := by
  have hx1 : x1 < width := by omega
  have hvert_true : s.vert y1 x1 = true := by
    cases hv : s.vert y1 x1
    · exfalso
      rw [(hinv.vfalse_seen y1 x1 hv).2] at hnseen
      exact Bool.noConfusion hnseen
    · rfl
  have hmono : ∀ c', Reaches s.horiz s.vert width height c' →
      Reaches s.horiz (mset s.vert y1 x1 false) width height c' :=
    fun c' => reaches_mono (fun _ _ hf => hf) (fun _ _ hf => mset_false_of _ _ hf)
  constructor
  · exact mset_true_of _ _ hinv.seen00
  · intro y x h
    rcases mset_true_inv h with hold | ⟨hq1, hq2⟩
    · exact hinv.seen_range y x hold
    · rw [hq1, hq2]
      exact ⟨hx2, hy1⟩
  · intro c hc
    rcases add_walls_range width height (x1+1) y1 _ hx2 hy1 c hc with h | h
    · exact hinv.cand_range c (eraseIdx_sub _ _ _ h)
    · exact h
  · intro y x h
    rcases mset_true_inv h with hold | ⟨hq1, hq2⟩
    · exact hmono _ (hinv.seen_reach y x hold)
    · rw [hq1, hq2]
      have hs := hmono _ (hinv.seen_reach y1 x1 hsseen)
      exact hs.tail (Adj.east x1 y1 hx2 (mset_same s.vert y1 x1 false))
  · show falseCount s.horiz width height +
      falseCount (mset s.vert y1 x1 false) width height + 1 =
      visCount (mset s.seen y1 (x1+1) true) width height
    rw [falseCount_mset hx1 hy1 hvert_true, visCount_mset hx2 hy1 hnseen]
    have hc := hinv.count_eq
    unfold falseTotal at hc
    omega
  · intro y x hf
    have hb := hinv.hfalse_seen y x hf
    exact ⟨mset_true_of _ _ hb.1, mset_true_of _ _ hb.2⟩
  · intro y x hf
    rcases mset_false_inv hf with hold | ⟨hq1, hq2⟩
    · have hb := hinv.vfalse_seen y x hold
      exact ⟨mset_true_of _ _ hb.1, mset_true_of _ _ hb.2⟩
    · rw [hq1, hq2]
      refine ⟨?_, mset_same s.seen y1 (x1+1) true⟩
      show mset s.seen y1 (x1+1) true y1 x1 = true
      rw [mset_other s.seen y1 (x1+1) true (by omega : ¬(y1 = y1 ∧ x1 = x1 + 1))]
      exact hsseen
  · apply frontier_v_step width height s.seen s.cands i (x1+1) y1 hinv.frontier_v
    intro x y hx hy hdiff heq
    rw [hc_eq] at heq
    injection heq with he1 he2 he3 he4 he5
    rw [he1, he2] at hdiff
    apply hdiff
    rw [mset_same s.seen y1 (x1+1) true,
      mset_other s.seen y1 (x1+1) true (by omega : ¬(y1 = y1 ∧ x1 = x1 + 1))]
    exact hsseen
  · apply frontier_h_step width height s.seen s.cands i (x1+1) y1 hinv.frontier_h
    intro x y hx hy hdiff heq
    rw [hc_eq] at heq
    injection heq with he1 he2 he3 he4 he5
    exact absurd he5 (by decide)

/-- Knocking down the horizontal wall `horiz[y1][x1]` whose upper cell
`(x1, y1+1)` is seen and whose lower cell `(x1, y1)` is new. -/
theorem knock_h_a (width height : Nat) (s : PrimState) (i : Nat)
    (x1 y1 : Nat) (hx1 : x1 < width) (hy2 : y1 + 1 < height)
    (hnseen : s.seen y1 x1 = false) (hsseen : s.seen (y1+1) x1 = true)
    (hc_eq : s.cands.getD i ⟨0, 0, 0, 0, 'v'⟩ = ⟨x1, y1, x1, y1+1, 'h'⟩)
    (hinv : PrimInv width height s) (rand' : Rand) :
    PrimInv width height
      { horiz := mset s.horiz y1 x1 false, vert := s.vert,
        seen := mset s.seen y1 x1 true,
        cands := add_walls width height x1 y1 (s.cands.eraseIdx i),
        rand := rand' } := by
  have hy1 : y1 < height := by omega
  have hhoriz_true : s.horiz y1 x1 = true := by
    cases hv : s.horiz y1 x1
    · exfalso
      rw [(hinv.hfalse_seen y1 x1 hv).1] at hnseen
      exact Bool.noConfusion hnseen
    · rfl
  have hmono : ∀ c', Reaches s.horiz s.vert width height c' →
      Reaches (mset s.horiz y1 x1 false) s.vert width height c' :=
    fun c' => reaches_mono (fun _ _ hf => mset_false_of _ _ hf) (fun _ _ hf => hf)
  constructor
  · exact mset_true_of _ _ hinv.seen00
  · intro y x h
    rcases mset_true_inv h with hold | ⟨hq1, hq2⟩
    · exact hinv.seen_range y x hold
    · rw [hq1, hq2]
      exact ⟨hx1, hy1⟩
  · intro c hc
    rcases add_walls_range width height x1 y1 _ hx1 hy1 c hc with h | h
    · exact hinv.cand_range c (eraseIdx_sub _ _ _ h)
    · exact h
  · intro y x h
    rcases mset_true_inv h with hold | ⟨hq1, hq2⟩
    · exact hmono _ (hinv.seen_reach y x hold)
    · rw [hq1, hq2]
      have hs := hmono _ (hinv.seen_reach (y1+1) x1 hsseen)
      have hadj : Adj (mset s.horiz y1 x1 false) s.vert width height
          (x1, y1+1) (x1, y1+1-1) :=
        Adj.south x1 (y1+1) (by omega)
          (by rw [show y1 + 1 - 1 = y1 from by omega]; exact mset_same s.horiz y1 x1 false)
      have hres := hs.tail hadj
      rwa [show y1 + 1 - 1 = y1 from by omega] at hres
  · show falseCount (mset s.horiz y1 x1 false) width height +
      falseCount s.vert width height + 1 =
      visCount (mset s.seen y1 x1 true) width height
    rw [falseCount_mset hx1 hy1 hhoriz_true, visCount_mset hx1 hy1 hnseen]
    have hc := hinv.count_eq
    unfold falseTotal at hc
    omega
  · intro y x hf
    rcases mset_false_inv hf with hold | ⟨hq1, hq2⟩
    · have hb := hinv.hfalse_seen y x hold
      exact ⟨mset_true_of _ _ hb.1, mset_true_of _ _ hb.2⟩
    · rw [hq1, hq2]
      refine ⟨mset_same s.seen y1 x1 true, ?_⟩
      show mset s.seen y1 x1 true (y1+1) x1 = true
      rw [mset_other s.seen y1 x1 true (by omega : ¬(y1 + 1 = y1 ∧ x1 = x1))]
      exact hsseen
  · intro y x hf
    have hb := hinv.vfalse_seen y x hf
    exact ⟨mset_true_of _ _ hb.1, mset_true_of _ _ hb.2⟩
  · apply frontier_v_step width height s.seen s.cands i x1 y1 hinv.frontier_v
    intro x y hx hy hdiff heq
    rw [hc_eq] at heq
    injection heq with he1 he2 he3 he4 he5
    exact absurd he5 (by decide)
  · apply frontier_h_step width height s.seen s.cands i x1 y1 hinv.frontier_h
    intro x y hx hy hdiff heq
    rw [hc_eq] at heq
    injection heq with he1 he2 he3 he4 he5
    rw [he1, he2] at hdiff
    apply hdiff
    rw [mset_same s.seen y1 x1 true,
      mset_other s.seen y1 x1 true (by omega : ¬(y1 + 1 = y1 ∧ x1 = x1))]
    exact hsseen.symm
  
/-- As `knock_h_a`, but the lower cell `(x1, y1)` is seen and the upper cell
`(x1, y1+1)` is new. -/
theorem knock_h_b (width height : Nat) (s : PrimState) (i : Nat)
    (x1 y1 : Nat) (hx1 : x1 < width) (hy2 : y1 + 1 < height)
    (hnseen : s.seen (y1+1) x1 = false) (hsseen : s.seen y1 x1 = true)
    (hc_eq : s.cands.getD i ⟨0, 0, 0, 0, 'v'⟩ = ⟨x1, y1, x1, y1+1, 'h'⟩)
    (hinv : PrimInv width height s) (rand' : Rand) :
    PrimInv width height
      { horiz := mset s.horiz y1 x1 false, vert := s.vert,
        seen := mset s.seen (y1+1) x1 true,
        cands := add_walls width height x1 (y1+1) (s.cands.eraseIdx i),
        rand := rand' } := by
  have hy1 : y1 < height := by omega
  have hhoriz_true : s.horiz y1 x1 = true := by
    cases hv : s.horiz y1 x1
    · exfalso
      rw [(hinv.hfalse_seen y1 x1 hv).2] at hnseen
      exact Bool.noConfusion hnseen
    · rfl
  have hmono : ∀ c', Reaches s.horiz s.vert width height c' →
      Reaches (mset s.horiz y1 x1 false) s.vert width height c' :=
    fun c' => reaches_mono (fun _ _ hf => mset_false_of _ _ hf) (fun _ _ hf => hf)
  constructor
  · exact mset_true_of (y1+1) x1 hinv.seen00
  · intro y x h
    rcases mset_true_inv h with hold | ⟨hq1, hq2⟩
    · exact hinv.seen_range y x hold
    · rw [hq1, hq2]
      exact ⟨hx1, hy2⟩
  · intro c hc
    rcases add_walls_range width height x1 (y1+1) _ hx1 hy2 c hc with h | h
    · exact hinv.cand_range c (eraseIdx_sub _ _ _ h)
    · exact h
  · intro y x h
    rcases mset_true_inv h with hold | ⟨hq1, hq2⟩
    · exact hmono _ (hinv.seen_reach y x hold)
    · rw [hq1, hq2]
      have hs := hmono _ (hinv.seen_reach y1 x1 hsseen)
      exact hs.tail (Adj.north x1 y1 hy2 (mset_same s.horiz y1 x1 false))
  · show falseCount (mset s.horiz y1 x1 false) width height +
      falseCount s.vert width height + 1 =
      visCount (mset s.seen (y1+1) x1 true) width height
    rw [falseCount_mset hx1 hy1 hhoriz_true, visCount_mset hx1 hy2 hnseen]
    have hc := hinv.count_eq
    unfold falseTotal at hc
    omega
  · intro y x hf
    rcases mset_false_inv hf with hold | ⟨hq1, hq2⟩
    · have hb := hinv.hfalse_seen y x hold
      exact ⟨mset_true_of _ _ hb.1, mset_true_of _ _ hb.2⟩
    · rw [hq1, hq2]
      refine ⟨?_, mset_same s.seen (y1+1) x1 true⟩
      show mset s.seen (y1+1) x1 true y1 x1 = true
      rw [mset_other s.seen (y1+1) x1 true (by omega : ¬(y1 = y1 + 1 ∧ x1 = x1))]
      exact hsseen
  · intro y x hf
    have hb := hinv.vfalse_seen y x hf
    exact ⟨mset_true_of _ _ hb.1, mset_true_of _ _ hb.2⟩
  · apply frontier_v_step width height s.seen s.cands i x1 (y1+1) hinv.frontier_v
    intro x y hx hy hdiff heq
    rw [hc_eq] at heq
    injection heq with he1 he2 he3 he4 he5
    exact absurd he5 (by decide)
  · apply frontier_h_step width height s.seen s.cands i x1 (y1+1) hinv.frontier_h
    intro x y hx hy hdiff heq
    rw [hc_eq] at heq
    injection heq with he1 he2 he3 he4 he5
    rw [he1, he2] at hdiff
    apply hdiff
    rw [mset_same s.seen (y1+1) x1 true,
      mset_other s.seen (y1+1) x1 true (by omega : ¬(y1 = y1 + 1 ∧ x1 = x1))]
    exact hsseen

theorem length_eraseIdx_own {α : Type} : ∀ (l : List α) (i : Nat), i < l.length →
    (l.eraseIdx i).length = l.length - 1 := by
  intro l
  induction l with
  | nil => intro i hi; cases hi
  | cons b t ih =>
    intro i hi
    cases i with
    | zero => rfl
    | succ j =>
      show (t.eraseIdx j).length + 1 = t.length + 1 - 1
      rw [ih j (by simpa using hi)]
      have : 0 < t.length := by
        have := hi
        simp at this
        omega
      omega

/-- One iteration of the Prim loop preserves the invariant and strictly
decreases the termination measure. -/
theorem primStep_inv (width height : Nat) (s : PrimState) (hne : s.cands ≠ [])
    (hinv : PrimInv width height s) :
    PrimInv width height (primStep width height s) ∧
    primPotential (primStep width height s) width height + 1 ≤
      primPotential s width height := by
  have hlen : 0 < s.cands.length := List.length_pos.mpr hne
  set i := (nextRand s.rand).1 % s.cands.length with hi_def
  have hi : i < s.cands.length := Nat.mod_lt _ hlen
  set c := s.cands.getD i ⟨0, 0, 0, 0, 'v'⟩ with hc_def
  have hcmem : c ∈ s.cands := getD_mem _ s.cands i hi
  have hcok := hinv.cand_range c hcmem
  have hei : (s.cands.eraseIdx i).length = s.cands.length - 1 :=
    length_eraseIdx_own s.cands i hi
  have hstep : primStep width height s =
      (if xor (s.seen c.y1 c.x1) (s.seen c.y2 c.x2) = true then
        { horiz := if c.t = 'v' then s.horiz else mset s.horiz c.y1 c.x1 false,
          vert := if c.t = 'v' then mset s.vert c.y1 c.x1 false else s.vert,
          seen := mset s.seen
            (if s.seen c.y2 c.x2 = true then (c.x1, c.y1) else (c.x2, c.y2)).2
            (if s.seen c.y2 c.x2 = true then (c.x1, c.y1) else (c.x2, c.y2)).1 true,
          cands := add_walls width height
            (if s.seen c.y2 c.x2 = true then (c.x1, c.y1) else (c.x2, c.y2)).1
            (if s.seen c.y2 c.x2 = true then (c.x1, c.y1) else (c.x2, c.y2)).2
            (s.cands.eraseIdx i),
          rand := (nextRand s.rand).2 }
      else { s with cands := s.cands.eraseIdx i, rand := (nextRand s.rand).2 }) := rfl
  rw [hstep]
  by_cases hxor : xor (s.seen c.y1 c.x1) (s.seen c.y2 c.x2) = true
  · rw [if_pos hxor]
    by_cases h2 : s.seen c.y2 c.x2 = true
    · rw [if_pos h2]
      have h1 : s.seen c.y1 c.x1 = false := by
        cases hone : s.seen c.y1 c.x1
        · rfl
        · rw [hone, h2] at hxor
          exact absurd hxor (by decide)
      rcases hcok with ⟨ht, hx2, hy2, hxb, hyb⟩ | ⟨ht, hx2, hy2, hxb, hyb⟩
      · -- vertical wall, left cell is new
        have hxw : c.x1 + 1 < width := by omega
        have hs2 : s.seen c.y1 (c.x1 + 1) = true := by
          rw [← hx2, ← hy2]
          exact h2
        have hceq : s.cands.getD i ⟨0, 0, 0, 0, 'v'⟩ =
            ⟨c.x1, c.y1, c.x1 + 1, c.y1, 'v'⟩ := by
          have he : c = ⟨c.x1, c.y1, c.x2, c.y2, c.t⟩ := rfl
          rw [hx2, hy2, ht] at he
          rw [← hc_def]
          exact he
        constructor
        · rw [if_pos ht, if_pos ht]
          exact knock_v_a width height s i c.x1 c.y1 hxw hyb h1 hs2 hceq hinv _
        · show (add_walls width height c.x1 c.y1 (s.cands.eraseIdx i)).length +
            4 * (width * height - visCount (mset s.seen c.y1 c.x1 true) width height) + 1 ≤
            s.cands.length + 4 * (width * height - visCount s.seen width height)
          have hal := add_walls_length width height c.x1 c.y1 (s.cands.eraseIdx i)
          have hvm := visCount_mset (show c.x1 < width by omega) hyb h1
          have hlt := visCount_lt (show c.x1 < width by omega) hyb h1
          rw [hvm, Nat.mul_comm width height]
          revert hlt
          generalize height * width = P
          intro hlt
          omega
      · -- horizontal wall, lower cell is new
        have hyw : c.y1 + 1 < height := by omega
        have hs2 : s.seen (c.y1 + 1) c.x1 = true := by
          rw [← hx2, ← hy2]
          exact h2
        have hceq : s.cands.getD i ⟨0, 0, 0, 0, 'v'⟩ =
            ⟨c.x1, c.y1, c.x1, c.y1 + 1, 'h'⟩ := by
          have he : c = ⟨c.x1, c.y1, c.x2, c.y2, c.t⟩ := rfl
          rw [hx2, hy2, ht] at he
          rw [← hc_def]
          exact he
        have htv : ¬(c.t = 'v') := by
          rw [ht]
          decide
        constructor
        · rw [if_neg htv, if_neg htv]
          exact knock_h_a width height s i c.x1 c.y1 hxb hyw h1 hs2 hceq hinv _
        · show (add_walls width height c.x1 c.y1 (s.cands.eraseIdx i)).length +
            4 * (width * height - visCount (mset s.seen c.y1 c.x1 true) width height) + 1 ≤
            s.cands.length + 4 * (width * height - visCount s.seen width height)
          have hal := add_walls_length width height c.x1 c.y1 (s.cands.eraseIdx i)
          have hvm := visCount_mset hxb (show c.y1 < height by omega) h1
          have hlt := visCount_lt hxb (show c.y1 < height by omega) h1
          rw [hvm, Nat.mul_comm width height]
          revert hlt
          generalize height * width = P
          intro hlt
          omega
    · rw [if_neg h2]
      have h2f : s.seen c.y2 c.x2 = false := by
        cases hb : s.seen c.y2 c.x2
        · rfl
        · exact absurd hb h2
      have h1 : s.seen c.y1 c.x1 = true := by
        cases hone : s.seen c.y1 c.x1
        · rw [hone, h2f] at hxor
          exact absurd hxor (by decide)
        · rfl
      rcases hcok with ⟨ht, hx2, hy2, hxb, hyb⟩ | ⟨ht, hx2, hy2, hxb, hyb⟩
      · -- vertical wall, right cell is new
        have hxw : c.x1 + 1 < width := by omega
        rw [hx2, hy2]
        have hn2 : s.seen c.y1 (c.x1 + 1) = false := by
          rw [← hx2, ← hy2]
          exact h2f
        have hceq : s.cands.getD i ⟨0, 0, 0, 0, 'v'⟩ =
            ⟨c.x1, c.y1, c.x1 + 1, c.y1, 'v'⟩ := by
          have he : c = ⟨c.x1, c.y1, c.x2, c.y2, c.t⟩ := rfl
          rw [hx2, hy2, ht] at he
          rw [← hc_def]
          exact he
        constructor
        · rw [if_pos ht, if_pos ht]
          exact knock_v_b width height s i c.x1 c.y1 hxw hyb hn2 h1 hceq hinv _
        · show (add_walls width height (c.x1 + 1) c.y1 (s.cands.eraseIdx i)).length +
            4 * (width * height -
              visCount (mset s.seen c.y1 (c.x1 + 1) true) width height) + 1 ≤
            s.cands.length + 4 * (width * height - visCount s.seen width height)
          have hal := add_walls_length width height (c.x1 + 1) c.y1 (s.cands.eraseIdx i)
          have hvm := visCount_mset hxw hyb hn2
          have hlt := visCount_lt hxw hyb hn2
          rw [hvm, Nat.mul_comm width height]
          revert hlt
          generalize height * width = P
          intro hlt
          omega
      · -- horizontal wall, upper cell is new
        have hyw : c.y1 + 1 < height := by omega
        rw [hx2, hy2]
        have hn2 : s.seen (c.y1 + 1) c.x1 = false := by
          rw [← hx2, ← hy2]
          exact h2f
        have hceq : s.cands.getD i ⟨0, 0, 0, 0, 'v'⟩ =
            ⟨c.x1, c.y1, c.x1, c.y1 + 1, 'h'⟩ := by
          have he : c = ⟨c.x1, c.y1, c.x2, c.y2, c.t⟩ := rfl
          rw [hx2, hy2, ht] at he
          rw [← hc_def]
          exact he
        have htv : ¬(c.t = 'v') := by
          rw [ht]
          decide
        constructor
        · rw [if_neg htv, if_neg htv]
          exact knock_h_b width height s i c.x1 c.y1 hxb hyw hn2 h1 hceq hinv _
        · show (add_walls width height c.x1 (c.y1 + 1) (s.cands.eraseIdx i)).length +
            4 * (width * height -
              visCount (mset s.seen (c.y1 + 1) c.x1 true) width height) + 1 ≤
            s.cands.length + 4 * (width * height - visCount s.seen width height)
          have hal := add_walls_length width height c.x1 (c.y1 + 1) (s.cands.eraseIdx i)
          have hvm := visCount_mset hxb hyw hn2
          have hlt := visCount_lt hxb hyw hn2
          rw [hvm, Nat.mul_comm width height]
          revert hlt
          generalize height * width = P
          intro hlt
          omega
  · rw [if_neg hxor]
    have hagree : s.seen c.y1 c.x1 = s.seen c.y2 c.x2 := by
      cases ha : s.seen c.y1 c.x1 <;> cases hb : s.seen c.y2 c.x2 <;> first
        | rfl
        | (exfalso; apply hxor; rw [ha, hb]; rfl)
    constructor
    · constructor
      · exact hinv.seen00
      · exact hinv.seen_range
      · intro c' hc'
        exact hinv.cand_range c' (eraseIdx_sub _ _ _ hc')
      · exact hinv.seen_reach
      · exact hinv.count_eq
      · exact hinv.hfalse_seen
      · exact hinv.vfalse_seen
      · intro x y hx hy hdiff
        have hdiff' : ¬(s.seen y x = s.seen y (x+1)) := hdiff
        refine mem_eraseIdx_of_ne ⟨0, 0, 0, 0, 'v'⟩ s.cands i _
          (hinv.frontier_v x y hx hy hdiff') ?_
        intro heq
        have he : c = (⟨x, y, x+1, y, 'v'⟩ : Cand) := by
          rw [hc_def, ← heq]
        have := hagree
        rw [he] at this
        exact hdiff' this
      · intro x y hx hy hdiff
        have hdiff' : ¬(s.seen y x = s.seen (y+1) x) := hdiff
        refine mem_eraseIdx_of_ne ⟨0, 0, 0, 0, 'v'⟩ s.cands i _
          (hinv.frontier_h x y hx hy hdiff') ?_
        intro heq
        have he : c = (⟨x, y, x, y+1, 'h'⟩ : Cand) := by
          rw [hc_def, ← heq]
        have := hagree
        rw [he] at this
        exact hdiff' this
    · show (s.cands.eraseIdx i).length +
        4 * (width * height - visCount s.seen width height) + 1 ≤
        s.cands.length + 4 * (width * height - visCount s.seen width height)
      omega

/-- The Prim loop, run with enough fuel, preserves the invariant and drains
the candidate list. -/
theorem primRun_inv (width height : Nat) :
    ∀ (fuel : Nat) (s : PrimState), PrimInv width height s →
      primPotential s width height ≤ fuel →
      PrimInv width height (primRun width height fuel s) ∧
      (primRun width height fuel s).cands = [] := by
  intro fuel
  induction fuel with
  | zero =>
    intro s hinv hpot
    have hlen : s.cands.length = 0 := by
      unfold primPotential at hpot
      omega
    exact ⟨hinv, List.eq_nil_of_length_eq_zero hlen⟩
  | succ n ih =>
    intro s hinv hpot
    cases hq : s.cands with
    | nil =>
      have heq : primRun width height (n+1) s = s := by
        conv_lhs => unfold primRun
        rw [hq]
        rfl
      rw [heq]
      exact ⟨hinv, hq⟩
    | cons cc rest =>
      have hne : s.cands ≠ [] := by
        rw [hq]
        exact List.cons_ne_nil _ _
      have heq : primRun width height (n+1) s =
          primRun width height n (primStep width height s) := by
        conv_lhs => unfold primRun
        rw [hq]
        rfl
      rw [heq]
      obtain ⟨hinv', hpot'⟩ := primStep_inv width height s hne hinv
      exact ih _ hinv' (by omega)

theorem visCount_singleton (width height : Nat) (hw : 0 < width) (hh : 0 < height) :
    visCount (mset (fun _ _ => false) 0 0 true) width height = 1 := by
  have hset : (((Finset.range height) ×ˢ (Finset.range width)).filter
      fun p => (mset (fun _ _ => false) 0 0 true) p.1 p.2 = true) =
      {((0 : Nat), (0 : Nat))} := by
    ext p
    simp only [Finset.mem_filter, Finset.mem_product, Finset.mem_range, Finset.mem_singleton]
    constructor
    · rintro ⟨_, hm⟩
      rcases mset_true_inv hm with hm | ⟨h1, h2⟩
      · exact Bool.noConfusion hm
      · obtain ⟨a, b⟩ := p
        simp_all
    · rintro rfl
      exact ⟨⟨hh, hw⟩, mset_same _ 0 0 true⟩
  unfold visCount
  rw [hset]
  rfl

/-- The start state of the Prim loop satisfies the invariant. -/
theorem primInit_inv (width height : Nat) (hw : 0 < width) (hh : 0 < height)
    (rand : Rand) : PrimInv width height (primInit width height rand) := by
  constructor
  · exact mset_same (fun _ _ => false) 0 0 true
  · intro y x h
    have h' : mset (fun _ _ => false) 0 0 true y x = true := h
    rcases mset_true_inv h' with h2 | ⟨rfl, rfl⟩
    · exact Bool.noConfusion h2
    · exact ⟨hw, hh⟩
  · intro c hc
    have hc' : c ∈ add_walls width height 0 0 [] := hc
    rcases add_walls_range width height 0 0 [] hw hh c hc' with h | h
    · cases h
    · exact h
  · intro y x h
    have h' : mset (fun _ _ => false) 0 0 true y x = true := h
    rcases mset_true_inv h' with h2 | ⟨rfl, rfl⟩
    · exact Bool.noConfusion h2
    · exact Relation.ReflTransGen.refl
  · show falseTotal (fun _ _ => true) (fun _ _ => true) width height + 1 =
      visCount (mset (fun _ _ => false) 0 0 true) width height
    unfold falseTotal
    rw [falseCount_allTrue, visCount_singleton width height hw hh]
  · intro y x h
    exact Bool.noConfusion h
  · intro y x h
    exact Bool.noConfusion h
  · intro x y hx hy hdiff
    have hdiff' : ¬(mset (fun _ _ => false) 0 0 true y x =
        mset (fun _ _ => false) 0 0 true y (x+1)) := hdiff
    by_cases h0 : y = 0 ∧ x = 0
    · obtain ⟨rfl, rfl⟩ := h0
      exact add_walls_mem_e width height 0 0 [] (by omega)
    · exfalso
      apply hdiff'
      rw [mset_other (fun _ _ => false) 0 0 true h0,
        mset_other (fun _ _ => false) 0 0 true (by rintro ⟨h1, h2⟩; omega)]
  · intro x y hx hy hdiff
    have hdiff' : ¬(mset (fun _ _ => false) 0 0 true y x =
        mset (fun _ _ => false) 0 0 true (y+1) x) := hdiff
    by_cases h0 : y = 0 ∧ x = 0
    · obtain ⟨rfl, rfl⟩ := h0
      exact add_walls_mem_n width height 0 0 [] (by omega)
    · exfalso
      apply hdiff'
      rw [mset_other (fun _ _ => false) 0 0 true h0,
        mset_other (fun _ _ => false) 0 0 true (by rintro ⟨h1, h2⟩; omega)]

/-- Once the candidate list is empty, the frontier conditions force every
in-range cell to be seen (induction along staircase paths from `(0,0)`). -/
theorem prim_all_seen (width height : Nat) (s : PrimState)
    (hinv : PrimInv width height s) (hempty : s.cands = []) :
    ∀ n x y, x < width → y < height → x + y = n → s.seen y x = true := by
  intro n
  induction n with
  | zero =>
    intro x y hx hy hxy
    have hx0 : x = 0 := by omega
    have hy0 : y = 0 := by omega
    rw [hx0, hy0]
    exact hinv.seen00
  | succ m ih =>
    intro x y hx hy hxy
    rcases Nat.eq_zero_or_pos x with hx0 | hxpos
    · have hypos : 0 < y := by omega
      obtain ⟨y', rfl⟩ : ∃ y', y = y' + 1 := ⟨y - 1, by omega⟩
      have hprev : s.seen y' x = true := ih x y' hx (by omega) (by omega)
      by_cases hd : s.seen y' x = s.seen (y'+1) x
      · rw [← hd]
        exact hprev
      · exfalso
        have hmem := hinv.frontier_h x y' hx (by omega) hd
        rw [hempty] at hmem
        cases hmem
    · obtain ⟨x', rfl⟩ : ∃ x', x = x' + 1 := ⟨x - 1, by omega⟩
      have hprev : s.seen y x' = true := ih x' y (by omega) hy (by omega)
      by_cases hd : s.seen y x' = s.seen y (x'+1)
      · rw [← hd]
        exact hprev
      · exfalso
        have hmem := hinv.frontier_v x' y (by omega) hy hd
        rw [hempty] at hmem
        cases hmem

/-! ## The claims -/

/-- C2: for every `width ≥ 2`, `height ≥ 2` and any random stream, the Prim
phase of `generate_maze` (lines 98-125, before the overlays) ends with every
cell marked seen, with exactly `width*height - 1` wall entries knocked down
to `False` across the two matrices, and with `is_fully_connected` reporting
full connectivity — i.e. the pre-overlay maze is a spanning tree (the edge
count `width*height - 1` together with connectivity over `width*height`
vertices excludes cycles). -/
theorem prim_phase_spanning_tree (width height : Nat) (hw : 2 ≤ width)
    (hh : 2 ≤ height) (rand : Rand) :
    (∀ y x, y < height → x < width → (primPhase width height rand).seen y x = true) ∧
    falseTotal (primPhase width height rand).horiz (primPhase width height rand).vert
      width height = width * height - 1 ∧
    is_fully_connected (primPhase width height rand).horiz
      (primPhase width height rand).vert width height = true := by
  have hw0 : 0 < width := by omega
  have hh0 : 0 < height := by omega
  have hinv0 := primInit_inv width height hw0 hh0 rand
  have hpot0 : primPotential (primInit width height rand) width height ≤
      4 * (width * height) := by
    show (add_walls width height 0 0 []).length +
      4 * (width * height - visCount (mset (fun _ _ => false) 0 0 true) width height) ≤
      4 * (width * height)
    have hal := add_walls_length width height 0 0 []
    simp only [List.length_nil] at hal
    rw [visCount_singleton width height hw0 hh0]
    have hP : 0 < width * height := Nat.mul_pos hw0 hh0
    revert hP
    generalize width * height = P
    intro hP
    omega
  obtain ⟨hinv, hempty⟩ := primRun_inv width height (4 * (width * height))
    (primInit width height rand) hinv0 hpot0
  have hall : ∀ y x, y < height → x < width →
      (primPhase width height rand).seen y x = true := by
    intro y x hy hx
    exact prim_all_seen width height _ hinv hempty (x + y) x y hx hy rfl
  refine ⟨hall, ?_, ?_⟩
  · have hvc : visCount (primPhase width height rand).seen width height =
        width * height := visCount_eq_total (fun y x hy hx => hall y x hy hx)
    have hce : falseTotal (primPhase width height rand).horiz
        (primPhase width height rand).vert width height + 1 =
        visCount (primPhase width height rand).seen width height := hinv.count_eq
    omega
  · rw [bfs_correct _ _ width height hw0 hh0]
    intro x hx y hy
    exact hinv.seen_reach y x (hall y x hy hx)

theorem prim_phase_spanning_tree_witness :
    falseTotal (primPhase 2 2 []).horiz (primPhase 2 2 []).vert 2 2 = 2 * 2 - 1 ∧
    is_fully_connected (primPhase 2 2 []).horiz (primPhase 2 2 []).vert 2 2 = true :=
  ⟨(prim_phase_spanning_tree 2 2 (by decide) (by decide) []).2.1,
   (prim_phase_spanning_tree 2 2 (by decide) (by decide) []).2.2⟩

/-- Claim C3: for every pair of `width x height` boolean matrices with
`width, height ≥ 1`, `is_fully_connected` returns `True` iff every one of
the `width*height` cells is reachable from `(0,0)` by a sequence of unit
moves each crossing only an absent wall — north from `(x,y)` needing
`y+1 < height` and `horiz[y][x]` false, east `x+1 < width` and `vert[y][x]`
false, south `y-1 ≥ 0` and `horiz[y-1][x]` false, west `x-1 ≥ 0` and
`vert[y][x-1]` false (the `Adj` relation). -/
theorem is_fully_connected_iff_reachable (horiz vert : Mat) (width height : Nat)
    (hw : 1 ≤ width) (hh : 1 ≤ height) :
    is_fully_connected horiz vert width height = true ↔
      ∀ x, x < width → ∀ y, y < height → Reaches horiz vert width height (x, y) :=
  bfs_correct horiz vert width height hw hh

/-- Witness for C3 at the fully-walled 1x1 grid. -/
theorem is_fully_connected_iff_reachable_witness :
    (1 : Nat) ≤ 1 ∧
    (is_fully_connected (fun _ _ => true) (fun _ _ => true) 1 1 = true ↔
      ∀ x, x < 1 → ∀ y, y < 1 → Reaches (fun _ _ => true) (fun _ _ => true) 1 1 (x, y)) :=
  ⟨Nat.le_refl 1, is_fully_connected_iff_reachable (fun _ _ => true) (fun _ _ => true) 1 1
    (Nat.le_refl 1) (Nat.le_refl 1)⟩

/-- Claim C4: in a simulate session, a `moveForward` command issued when
there is a wall in the agent's current heading direction, or when the
destination cell would lie outside the `MAZE_WIDTH x MAZE_HEIGHT` grid,
receives the one-line reply `crash`, and the session ends immediately
classified as a crash (`success = false`, the reason reporting the crash),
serving no further command (the remaining input `rest` is arbitrary and
unused). -/
theorem moveForward_blocked_crashes_session (walls : Walls) (s : SessState)
    (line : String) (rest : List String)
    (hfuel : s.agent.steps ≤ MAX_STEPS)
    (hmv : pyStartsWith (pyStrip line) "moveForward" = true)
    (hblock : wall_in_direction walls s.agent.x s.agent.y s.agent.heading = true ∨
      s.agent.x + dxv s.agent.heading < 0 ∨ MAZE_WIDTH ≤ s.agent.x + dxv s.agent.heading ∨
      s.agent.y + dyv s.agent.heading < 0 ∨ MAZE_HEIGHT ≤ s.agent.y + dyv s.agent.heading) :
    simLoop walls s (line :: rest) =
      ({ success := false, steps := s.agent.steps, reason := crashReason s.agent },
        ["crash"]) := by
  have hdm := dmf_crash walls s.agent hblock
  have hp := procCmd_move_crash walls s line hmv hdm
  conv_lhs => unfold simLoop
  rw [if_neg (Nat.not_lt.mpr hfuel), hp]

/-- Witness for C4: on the empty wall dictionary every cell is fully walled,
so the very first `moveForward` of a fresh session crashes it. -/
theorem moveForward_blocked_crashes_session_witness :
    initSess.agent.steps ≤ MAX_STEPS ∧
    pyStartsWith (pyStrip "moveForward") "moveForward" = true ∧
    simLoop emptyWalls initSess ["moveForward"] =
      ({ success := false, steps := initSess.agent.steps,
         reason := crashReason initSess.agent }, ["crash"]) :=
  ⟨by decide, by decide,
    moveForward_blocked_crashes_session emptyWalls initSess "moveForward" []
      (by decide) (by decide) (Or.inl rfl)⟩

/-- Claim C5: when the driven process ends its input stream while the
session is still running, the result is successful exactly when both flags
are set, with the three end-of-input reasons of the source, and it is always
a completed result record. -/
theorem end_of_input_classification (walls : Walls) (s : SessState)
    (hfuel : s.agent.steps ≤ MAX_STEPS) :
    simLoop walls s [] =
      ({ success := s.reached_center && s.reached_start,
         steps := s.agent.steps,
         reason :=
           if s.reached_center = true ∧ s.reached_start = true then
             "Fast run complete in " ++ toString s.agent.steps ++ " steps"
           else if s.reached_center = true then
             "Reached center but did not return to start"
           else "Process exited without reaching center" }, []) := by
  conv_lhs => unfold simLoop
  rw [if_neg (Nat.not_lt.mpr hfuel)]
  rfl

/-- Witness for C5: a session that ends immediately is classified as the
no-progress outcome. -/
theorem end_of_input_classification_witness :
    initSess.agent.steps ≤ MAX_STEPS ∧
    simLoop emptyWalls initSess [] =
      ({ success := false, steps := 0,
         reason := "Process exited without reaching center" }, []) := by
  refine ⟨by decide, ?_⟩
  rw [end_of_input_classification emptyWalls initSess (by decide)]
  rfl

/-- Claim C6: once the step counter exceeds `MAX_STEPS` the session ends as
a timeout on the next loop iteration whatever input (in particular any
forward-move request) remains; and a session entered at or below the budget
never records more than `MAX_STEPS + 1` steps, ending with exactly
`MAX_STEPS + 1` whenever it ends by timeout — the budget boundary, not
before and not long after. -/
theorem step_budget_timeout_boundary (walls : Walls) (s : SessState) (lines : List String) :
    (MAX_STEPS < s.agent.steps →
      simLoop walls s lines =
        ({ success := false, steps := s.agent.steps, reason := timeoutReason }, [])) ∧
    (s.agent.steps ≤ MAX_STEPS →
      (simLoop walls s lines).1.steps ≤ MAX_STEPS + 1 ∧
      ((simLoop walls s lines).1.reason = timeoutReason →
        (simLoop walls s lines).1.steps = MAX_STEPS + 1)) :=
  ⟨fun h => simLoop_over walls s lines h, fun h => simLoop_boundary walls lines s h⟩

/-- Witness for C6: a session already over budget times out at once, and a
fresh session's step count is bounded by the budget boundary. -/
theorem step_budget_timeout_boundary_witness :
    simLoop emptyWalls
        { agent := { x := 0, y := 0, heading := 0, steps := 5001 },
          reached_center := false, reached_start := false } ["wallFront"] =
      ({ success := false, steps := 5001, reason := timeoutReason }, []) ∧
    (simLoop emptyWalls initSess []).1.steps ≤ MAX_STEPS + 1 :=
  ⟨(step_budget_timeout_boundary emptyWalls
      { agent := { x := 0, y := 0, heading := 0, steps := 5001 },
        reached_center := false, reached_start := false } ["wallFront"]).1 (by decide),
   ((step_budget_timeout_boundary emptyWalls initSess []).2 (by decide)).1⟩

/-- Claim C9: throughout every session the two flags are monotone one-shot
flags: both start false, no continuing command resets either one,
`reached_center` becomes true exactly when a successful `moveForward` lands
in `CENTER_CELLS`, and `reached_start` becomes true only when a successful
`moveForward` lands on `(0,0)` while `reached_center` already holds; all
other commands leave both flags unchanged. -/
theorem session_flags_one_shot :
    (initSess.reached_center = false ∧ initSess.reached_start = false) ∧
    ∀ (walls : Walls) (s : SessState) (line : String) (s' : SessState) (out : List String),
      procCmd walls s line = .cont s' out →
      (s.reached_center = true → s'.reached_center = true) ∧
      (s.reached_start = true → s'.reached_start = true) ∧
      (pyStartsWith (pyStrip line) "moveForward" = true ∧
          (do_move_forward walls s.agent).1 = "ack" →
        ((s'.reached_center = true ↔
          (s.reached_center = true ∨ (s'.agent.x, s'.agent.y) ∈ CENTER_CELLS)) ∧
         (s'.reached_start = true ↔
          (s.reached_start = true ∨
            ((s'.agent.x, s'.agent.y) = (0, 0) ∧ s.reached_center = true))))) ∧
      (¬(pyStartsWith (pyStrip line) "moveForward" = true ∧
          (do_move_forward walls s.agent).1 = "ack") →
        s'.reached_center = s.reached_center ∧ s'.reached_start = s.reached_start) :=
  ⟨⟨rfl, rfl⟩, fun walls s line s' out h =>
    ⟨(procCmd_cont_master walls s line s' out h).2.1,
     (procCmd_cont_master walls s line s' out h).2.2.1,
     (procCmd_cont_master walls s line s' out h).2.2.2.1,
     fun hn => ⟨((procCmd_cont_master walls s line s' out h).2.2.2.2 hn).1,
       ((procCmd_cont_master walls s line s' out h).2.2.2.2 hn).2.1⟩⟩⟩

/-- Witness for C9: a `turnRight` is a continuing command and leaves both
flags where they were. -/
theorem session_flags_one_shot_witness :
    procCmd emptyWalls initSess "turnRight" =
      .cont { agent := { x := 0, y := 0, heading := 1, steps := 0 },
              reached_center := false, reached_start := false } ["ack"] ∧
    ({ agent := { x := 0, y := 0, heading := 1, steps := 0 },
       reached_center := false, reached_start := false } : SessState).reached_center =
      initSess.reached_center := by
  refine ⟨rfl, ?_⟩
  exact ((session_flags_one_shot.2 emptyWalls initSess "turnRight"
    { agent := { x := 0, y := 0, heading := 1, steps := 0 },
      reached_center := false, reached_start := false } ["ack"] rfl).2.2.2 (by decide)).1

/-- Claim C10: a `moveForward` that detects a wall ahead or an out-of-bounds
destination returns the `crash` reply with the agent state — position,
heading and step counter — entirely unchanged. -/
theorem do_move_forward_crash_state_unchanged (walls : Walls) (st : AgentState)
    (hblock : wall_in_direction walls st.x st.y st.heading = true ∨
      st.x + dxv st.heading < 0 ∨ MAZE_WIDTH ≤ st.x + dxv st.heading ∨
      st.y + dyv st.heading < 0 ∨ MAZE_HEIGHT ≤ st.y + dyv st.heading) :
    do_move_forward walls st = ("crash", st) :=
  dmf_crash walls st hblock

/-- Witness for C10: at the origin of the empty wall dictionary a forward
move crashes and leaves the state untouched. -/
theorem do_move_forward_crash_state_unchanged_witness :
    wall_in_direction emptyWalls 0 0 0 = true ∧
    do_move_forward emptyWalls { x := 0, y := 0, heading := 0, steps := 0 } =
      ("crash", { x := 0, y := 0, heading := 0, steps := 0 }) :=
  ⟨rfl, do_move_forward_crash_state_unchanged emptyWalls
    { x := 0, y := 0, heading := 0, steps := 0 } (Or.inl rfl)⟩

/-- Claim C7: writing a Grid Wall Model with `save_maze` and reading the
file back with `load_maze` reproduces the same four directional wall facts
(n, e, s, w, including synthesized boundary walls) for every cell, and
consequently the re-derived view agrees from both sides of every adjacent
cell pair: north of `(x,y)` equals south of `(x,y+1)` and east of `(x,y)`
equals west of `(x+1,y)`. -/
theorem save_load_round_trip (horiz vert : Mat) (width height : Nat) (x y : Nat)
    (hx : x < width) (hy : y < height) :
    (wall_in_direction (load_maze (save_maze horiz vert width height)) (x : Int) (y : Int) 0 =
        true ↔ (y = height - 1 ∨ horiz y x = true)) ∧
    (wall_in_direction (load_maze (save_maze horiz vert width height)) (x : Int) (y : Int) 1 =
        true ↔ (x = width - 1 ∨ vert y x = true)) ∧
    (wall_in_direction (load_maze (save_maze horiz vert width height)) (x : Int) (y : Int) 2 =
        true ↔ (y = 0 ∨ horiz (y-1) x = true)) ∧
    (wall_in_direction (load_maze (save_maze horiz vert width height)) (x : Int) (y : Int) 3 =
        true ↔ (x = 0 ∨ vert y (x-1) = true)) ∧
    (y + 1 < height →
      wall_in_direction (load_maze (save_maze horiz vert width height)) (x : Int) (y : Int) 0 =
      wall_in_direction (load_maze (save_maze horiz vert width height)) (x : Int) ((y+1 : Nat) : Int) 2) ∧
    (x + 1 < width →
      wall_in_direction (load_maze (save_maze horiz vert width height)) (x : Int) (y : Int) 1 =
      wall_in_direction (load_maze (save_maze horiz vert width height)) ((x+1 : Nat) : Int) (y : Int) 3) := by
  have h0 := load_save_lookup horiz vert width height x y hx hy
  refine ⟨?_, ?_, ?_, ?_, ?_, ?_⟩
  · rw [wall_in_direction, h0]
    simp only [saveRec, lineCell]
    exact ite_one_zero_ne _
  · rw [wall_in_direction, h0]
    simp only [saveRec, lineCell]
    exact ite_one_zero_ne _
  · rw [wall_in_direction, h0]
    simp only [saveRec, lineCell]
    exact ite_one_zero_ne _
  · rw [wall_in_direction, h0]
    simp only [saveRec, lineCell]
    exact ite_one_zero_ne _
  · intro hy2
    have h1 := load_save_lookup horiz vert width height x (y+1) hx hy2
    rw [wall_in_direction, wall_in_direction, h0, h1]
    show ((if y = height - 1 ∨ horiz y x = true then (1 : Int) else 0) != 0) =
      ((if y + 1 = 0 ∨ horiz (y + 1 - 1) x = true then (1 : Int) else 0) != 0)
    rw [Bool.eq_iff_iff, ite_one_zero_ne, ite_one_zero_ne]
    have hne : y ≠ height - 1 := by omega
    have hz : y + 1 ≠ 0 := by omega
    have hsub : y + 1 - 1 = y := by omega
    rw [hsub]
    constructor
    · rintro (h | h)
      · exact absurd h hne
      · exact Or.inr h
    · rintro (h | h)
      · exact absurd h hz
      · exact Or.inr h
  · intro hx2
    have h1 := load_save_lookup horiz vert width height (x+1) y hx2 hy
    rw [wall_in_direction, wall_in_direction, h0, h1]
    show ((if x = width - 1 ∨ vert y x = true then (1 : Int) else 0) != 0) =
      ((if x + 1 = 0 ∨ vert y (x + 1 - 1) = true then (1 : Int) else 0) != 0)
    rw [Bool.eq_iff_iff, ite_one_zero_ne, ite_one_zero_ne]
    have hne : x ≠ width - 1 := by omega
    have hz : x + 1 ≠ 0 := by omega
    have hsub : x + 1 - 1 = x := by omega
    rw [hsub]
    constructor
    · rintro (h | h)
      · exact absurd h hne
      · exact Or.inr h
    · rintro (h | h)
      · exact absurd h hz
      · exact Or.inr h

/-- Witness for C7 on a concrete 2x2 model with one interior wall open. -/
theorem save_load_round_trip_witness :
    (0 : Nat) < 2 ∧
    (wall_in_direction (load_maze (save_maze (fun _ _ => false) (fun _ _ => true) 2 2))
        ((0 : Nat) : Int) ((0 : Nat) : Int) 0 = true ↔
      ((0 : Nat) = 2 - 1 ∨ (fun _ _ => false : Mat) 0 0 = true)) :=
  ⟨by decide,
    (save_load_round_trip (fun _ _ => false) (fun _ _ => true) 2 2 0 0
      (by decide) (by decide)).1⟩

/-! ## Overlay evaluation lemmas (generate_maze lines 127-199) -/

theorem except_bind_ok {α β : Type} {x : Except String α} {f : α → Except String β} {b : β}
    (h : x.bind f = .ok b) : ∃ a, x = .ok a ∧ f a = .ok b := by
  cases x with
  | error e => exact Except.noConfusion h
  | ok a => exact ⟨a, rfl, h⟩

theorem ok_of_exceptOk {α : Type} (d : α) (x : Except String α) (h : exceptOk x = true) :
    x = .ok (okValue d x) := by
  cases x with
  | ok a => rfl
  | error e => exact Bool.noConfusion h

/-- `startOverlay` at 10x10, evaluated: both index checks pass, and one of
the two branches of the random choice is taken. -/
theorem startOverlay_eval (h v : Mat) (r : Rand) :
    startOverlay 10 10 h v r =
      (if (nextRand r).1 % 2 = 0 then
        .ok (mset h 0 0 true, mset v 0 0 false, (nextRand r).2)
      else
        .ok (mset h 0 0 false, mset v 0 0 true, (nextRand r).2)) := rfl

/-- What a successful `startOverlay` run guarantees: exactly one of
`horiz[0][0]`, `vert[0][0]` is open, every other entry untouched. -/
theorem startOverlay_props (h v : Mat) (r : Rand) (out : Mat × Mat × Rand)
    (hso : startOverlay 10 10 h v r = .ok out) :
    xor (out.1 0 0) (out.2.1 0 0) = true ∧
    (∀ y x, ¬(y = 0 ∧ x = 0) → out.1 y x = h y x) ∧
    (∀ y x, ¬(y = 0 ∧ x = 0) → out.2.1 y x = v y x) := by
  rw [startOverlay_eval] at hso
  by_cases hp : (nextRand r).1 % 2 = 0
  · rw [if_pos hp] at hso
    have hout := Except.ok.inj hso
    subst hout
    refine ⟨by simp [mset], ?_, ?_⟩
    · intro y x hne
      exact mset_other h 0 0 true hne
    · intro y x hne
      exact mset_other v 0 0 false hne
  · rw [if_neg hp] at hso
    have hout := Except.ok.inj hso
    subst hout
    refine ⟨by simp [mset], ?_, ?_⟩
    · intro y x hne
      exact mset_other h 0 0 false hne
    · intro y x hne
      exact mset_other v 0 0 true hne

/-- `centerOverlay` at 10x10, evaluated up to the random entrance choice:
the interior clears and the eight forced perimeter writes all pass their
index checks, leaving `(hForced, vForced)` and then one entrance write. -/
theorem centerOverlay_eval (h v : Mat) (r : Rand) :
    centerOverlay 10 10 h v r =
      (setWallEntry 10 10 (hForced h, vForced v)
          (center_perimeter.getD ((nextRand r).1 % center_perimeter.length) (0, 0, 'h')).1
          (center_perimeter.getD ((nextRand r).1 % center_perimeter.length) (0, 0, 'h')).2.1
          (center_perimeter.getD ((nextRand r).1 % center_perimeter.length) (0, 0, 'h')).2.2
          false).bind
        (fun hv => .ok (hv.1, hv.2, (nextRand r).2)) := rfl

/-- What a successful `centerOverlay` run guarantees: the four interior
center walls are open and exactly one of the eight perimeter walls is. -/
theorem centerOverlay_props (h v : Mat) (r : Rand) (out : Mat × Mat × Rand)
    (hco : centerOverlay 10 10 h v r = .ok out) :
    out.2.1 4 4 = false ∧ out.2.1 5 4 = false ∧ out.1 4 4 = false ∧ out.1 4 5 = false ∧
    perimCount out.1 out.2.1 = 1 := by
  rw [centerOverlay_eval] at hco
  have hk : (nextRand r).1 % center_perimeter.length < 8 := Nat.mod_lt _ (by decide)
  set k := (nextRand r).1 % center_perimeter.length with hkd
  have h8 : k = 0 ∨ k = 1 ∨ k = 2 ∨ k = 3 ∨ k = 4 ∨ k = 5 ∨ k = 6 ∨ k = 7 := by omega
  rcases h8 with hk0 | hk0 | hk0 | hk0 | hk0 | hk0 | hk0 | hk0 <;>
    (rw [hk0] at hco
     have hout := Except.ok.inj hco
     subst hout
     refine ⟨by simp [vForced, mset, center_perimeter], by simp [vForced, mset, center_perimeter],
       by simp [hForced, mset, center_perimeter], by simp [hForced, mset, center_perimeter], ?_⟩
     simp [perimCount, hForced, vForced, mset, center_perimeter])

theorem perimCount_congr (h1 v1 h2 v2 : Mat)
    (hh : ∀ y x, ¬(y = 0 ∧ x = 0) → h2 y x = h1 y x)
    (hv : ∀ y x, ¬(y = 0 ∧ x = 0) → v2 y x = v1 y x) :
    perimCount h2 v2 = perimCount h1 v1 := by
  unfold perimCount
  rw [hh 3 4 (by omega), hh 3 5 (by omega), hh 5 4 (by omega), hh 5 5 (by omega),
    hv 4 3 (by omega), hv 5 3 (by omega), hv 4 5 (by omega), hv 5 5 (by omega)]

/-- C1: every maze `(horiz, vert) = hv` actually returned by
`generate_maze 10 10` satisfies the post-overlay validity conditions:
(a) the four interior walls of the 2x2 center are absent
(`vert[4][4]`, `vert[5][4]`, `horiz[4][4]`, `horiz[4][5]`),
(b) exactly one of the eight perimeter walls of the center region is
absent, (c) exactly one of `horiz[0][0]` and `vert[0][0]` is `False`
(the start cell has exactly one open side), and (d) `is_fully_connected`
returns `True`. -/
theorem generate_maze_post_overlay_validity :
    ∀ (fuel : Nat) (rand : Rand) (hv : Mat × Mat),
    generate_maze 10 10 fuel rand = .ok hv →
    hv.2 4 4 = false ∧ hv.2 5 4 = false ∧ hv.1 4 4 = false ∧ hv.1 4 5 = false ∧
    perimCount hv.1 hv.2 = 1 ∧
    xor (hv.1 0 0) (hv.2 0 0) = true ∧
    is_fully_connected hv.1 hv.2 10 10 = true := by
  intro fuel
  induction fuel with
  | zero =>
    intro rand hv h
    exact Except.noConfusion h
  | succ n ih =>
    intro rand hv h
    have hstep : generate_maze 10 10 (n+1) rand =
        (centerOverlay 10 10 (primPhase 10 10 rand).horiz (primPhase 10 10 rand).vert
            (primPhase 10 10 rand).rand).bind (fun co =>
          (startOverlay 10 10 co.1 co.2.1 co.2.2).bind (fun so =>
            if is_fully_connected so.1 so.2.1 10 10 then .ok (so.1, so.2.1)
            else generate_maze 10 10 n so.2.2)) := rfl
    rw [hstep] at h
    obtain ⟨co, hco, h⟩ := except_bind_ok h
    obtain ⟨so, hso, h⟩ := except_bind_ok h
    by_cases hfc : is_fully_connected so.1 so.2.1 10 10 = true
    · rw [if_pos hfc] at h
      have hhv := Except.ok.inj h
      subst hhv
      obtain ⟨hv44, hv54, hh44, hh45, hpc⟩ := centerOverlay_props _ _ _ _ hco
      obtain ⟨hx, hph, hpv⟩ := startOverlay_props _ _ _ _ hso
      refine ⟨?_, ?_, ?_, ?_, ?_, ?_, ?_⟩
      · show so.2.1 4 4 = false
        rw [hpv 4 4 (by omega)]
        exact hv44
      · show so.2.1 5 4 = false
        rw [hpv 5 4 (by omega)]
        exact hv54
      · show so.1 4 4 = false
        rw [hph 4 4 (by omega)]
        exact hh44
      · show so.1 4 5 = false
        rw [hph 4 5 (by omega)]
        exact hh45
      · show perimCount so.1 so.2.1 = 1
        rw [perimCount_congr co.1 co.2.1 so.1 so.2.1 hph hpv]
        exact hpc
      · exact hx
      · exact hfc
    · rw [if_neg hfc] at h
      exact ih so.2.2 hv h

set_option maxRecDepth 100000 in
set_option maxHeartbeats 2000000 in
theorem generate_maze_post_overlay_validity_witness :
    exceptOk (generate_maze 10 10 1 (lcgList 132 450)) = true ∧
    perimCount
      (okValue ((fun _ _ => true), (fun _ _ => true)) (generate_maze 10 10 1 (lcgList 132 450))).1
      (okValue ((fun _ _ => true), (fun _ _ => true)) (generate_maze 10 10 1 (lcgList 132 450))).2
      = 1 ∧
    is_fully_connected
      (okValue ((fun _ _ => true), (fun _ _ => true)) (generate_maze 10 10 1 (lcgList 132 450))).1
      (okValue ((fun _ _ => true), (fun _ _ => true)) (generate_maze 10 10 1 (lcgList 132 450))).2
      10 10 = true := by
  have hok : exceptOk (generate_maze 10 10 1 (lcgList 132 450)) = true := by decide
  have hrun := ok_of_exceptOk ((fun _ _ => true), (fun _ _ => true))
    (generate_maze 10 10 1 (lcgList 132 450)) hok
  have hmain := generate_maze_post_overlay_validity 1 (lcgList 132 450) _ hrun
  exact ⟨hok, hmain.2.2.2.2.1, hmain.2.2.2.2.2.2⟩

/-! ## Parameter handling of `generate_maze` (C8) -/

theorem ebind_ok {α β : Type} (a : α) (f : α → Except String β) :
    (Except.ok a : Except String α).bind f = f a := rfl

theorem ebind_err {α β : Type} (s : String) (f : α → Except String β) :
    (Except.error s : Except String α).bind f = Except.error s := rfl

theorem ebind_ok' {α β : Type} (a : α) (f : α → Except String β) :
    (Except.ok a : Except String α) >>= f = f a := rfl

theorem msetChecked_ok (w h : Nat) (m : Mat) (y x : Nat) (b : Bool) (hc : y < h ∧ x < w) :
    msetChecked w h m y x b = .ok (mset m y x b) := by
  unfold msetChecked
  rw [if_pos hc]

theorem msetChecked_err (w h : Nat) (m : Mat) (y x : Nat) (b : Bool) (hc : ¬(y < h ∧ x < w)) :
    msetChecked w h m y x b = .error "IndexError" := by
  unfold msetChecked
  rw [if_neg hc]

/-- `centerOverlay` for arbitrary dimensions, desugared into explicit binds
(pure do-notation unfolding, no index check resolved). -/
theorem centerOverlay_eval_gen (w h : Nat) (hM vM : Mat) (r : Rand) :
    centerOverlay w h hM vM r =
      (msetChecked w h vM 4 4 false).bind (fun vert =>
        (msetChecked w h vert 5 4 false).bind (fun vert =>
          (msetChecked w h hM 4 4 false).bind (fun horiz =>
            (msetChecked w h horiz 4 5 false).bind (fun horiz =>
              (center_perimeter.foldlM
                  (fun hv e => setWallEntry w h hv e.1 e.2.1 e.2.2 true) (horiz, vert)).bind
                (fun hv =>
                  (setWallEntry w h hv
                      (center_perimeter.getD ((nextRand r).1 % center_perimeter.length)
                        (0, 0, 'h')).1
                      (center_perimeter.getD ((nextRand r).1 % center_perimeter.length)
                        (0, 0, 'h')).2.1
                      (center_perimeter.getD ((nextRand r).1 % center_perimeter.length)
                        (0, 0, 'h')).2.2
                      false).bind
                    (fun hv => .ok (hv.1, hv.2, (nextRand r).2))))))) := rfl

/-- With `width < 6` or `height < 6` one of the four fixed center writes is
out of range, so `centerOverlay` raises `IndexError` (whatever the input
maze and randomness). -/
theorem centerOverlay_small_err (w h : Nat) (hM vM : Mat) (r : Rand)
    (hsmall : w < 6 ∨ h < 6) :
    centerOverlay w h hM vM r = .error "IndexError" := by
  rw [centerOverlay_eval_gen]
  by_cases hc1 : (4 : Nat) < h ∧ 4 < w
  · simp only [msetChecked_ok w h vM 4 4 false hc1, ebind_ok]
    by_cases hc2 : (5 : Nat) < h ∧ 4 < w
    · simp only [msetChecked_ok w h (mset vM 4 4 false) 5 4 false hc2, ebind_ok,
        msetChecked_ok w h hM 4 4 false hc1]
      by_cases hc4 : (4 : Nat) < h ∧ 5 < w
      · exfalso
        rcases hsmall with hs | hs <;> omega
      · simp only [msetChecked_err w h (mset hM 4 4 false) 4 5 false hc4, ebind_err]
    · simp only [msetChecked_err w h (mset vM 4 4 false) 5 4 false hc2, ebind_err]
  · simp only [msetChecked_err w h vM 4 4 false hc1, ebind_err]

/-- Both branches of one perimeter write succeed when the indices fit. -/
theorem setWallEntry_ok_large (w h : Nat) (hw : 6 ≤ w) (hh : 6 ≤ h) (hv : Mat × Mat)
    (x y : Nat) (t : Char) (b : Bool) (hx : x ≤ 5) (hy : y ≤ 5) :
    setWallEntry w h hv x y t b =
      .ok (if t = 'h' then (mset hv.1 y x b, hv.2) else (hv.1, mset hv.2 y x b)) := by
  unfold setWallEntry
  by_cases hch : t = 'h'
  · rw [if_pos hch, if_pos hch, msetChecked_ok w h hv.1 y x b ⟨by omega, by omega⟩, ebind_ok']
  · rw [if_neg hch, if_neg hch, msetChecked_ok w h hv.2 y x b ⟨by omega, by omega⟩, ebind_ok']

/-- The force-on fold of the center overlay succeeds whenever every listed
entry is within the first six rows and columns. -/
theorem foldl_force_ok (w h : Nat) (hw : 6 ≤ w) (hh : 6 ≤ h) :
    ∀ (l : List (Nat × Nat × Char)), (∀ e ∈ l, e.1 ≤ 5 ∧ e.2.1 ≤ 5) →
    ∀ (hv : Mat × Mat), ∃ out,
      l.foldlM (fun hv e => setWallEntry w h hv e.1 e.2.1 e.2.2 true) hv = .ok out := by
  intro l
  induction l with
  | nil =>
    intro _ hv
    exact ⟨hv, rfl⟩
  | cons e t iht =>
    intro hb hv
    obtain ⟨hx, hy⟩ := hb e (List.mem_cons_self e t)
    have hsw := setWallEntry_ok_large w h hw hh hv e.1 e.2.1 e.2.2 true hx hy
    obtain ⟨out, hout⟩ := iht (fun e' he' => hb e' (List.mem_cons_of_mem _ he'))
      (if e.2.2 = 'h' then (mset hv.1 e.2.1 e.1 true, hv.2)
       else (hv.1, mset hv.2 e.2.1 e.1 true))
    refine ⟨out, ?_⟩
    rw [List.foldlM_cons]
    simp only [hsw, ebind_ok']
    exact hout

theorem center_perimeter_bounds : ∀ K : Nat,
    (center_perimeter.getD K (0, 0, 'h')).1 ≤ 5 ∧
    (center_perimeter.getD K (0, 0, 'h')).2.1 ≤ 5 := by
  intro K
  rcases K with _ | _ | _ | _ | _ | _ | _ | _ | K <;>
    first
    | exact ⟨by decide, by decide⟩
    | exact ⟨Nat.zero_le 5, Nat.zero_le 5⟩

/-- With `width, height ≥ 6` every write of `centerOverlay` is in range. -/
theorem centerOverlay_ok_large (w h : Nat) (hw : 6 ≤ w) (hh : 6 ≤ h)
    (hM vM : Mat) (r : Rand) : ∃ out, centerOverlay w h hM vM r = .ok out := by
  rw [centerOverlay_eval_gen]
  simp only [msetChecked_ok w h vM 4 4 false ⟨by omega, by omega⟩, ebind_ok]
  simp only [msetChecked_ok w h (mset vM 4 4 false) 5 4 false ⟨by omega, by omega⟩, ebind_ok]
  simp only [msetChecked_ok w h hM 4 4 false ⟨by omega, by omega⟩, ebind_ok]
  simp only [msetChecked_ok w h (mset hM 4 4 false) 4 5 false ⟨by omega, by omega⟩, ebind_ok]
  obtain ⟨hvf, hfold⟩ := foldl_force_ok w h hw hh center_perimeter (by decide)
    ((mset (mset hM 4 4 false) 4 5 false), (mset (mset vM 4 4 false) 5 4 false))
  simp only [hfold, ebind_ok]
  have hent := setWallEntry_ok_large w h hw hh hvf
    (center_perimeter.getD ((nextRand r).1 % center_perimeter.length) (0, 0, 'h')).1
    (center_perimeter.getD ((nextRand r).1 % center_perimeter.length) (0, 0, 'h')).2.1
    (center_perimeter.getD ((nextRand r).1 % center_perimeter.length) (0, 0, 'h')).2.2
    false
    (center_perimeter_bounds _).1 (center_perimeter_bounds _).2
  simp only [hent, ebind_ok]
  exact ⟨_, rfl⟩

/-- With `width, height ≥ 6` both writes of `startOverlay` are in range. -/
theorem startOverlay_ok_large (w h : Nat) (hw : 6 ≤ w) (hh : 6 ≤ h)
    (hM vM : Mat) (r : Rand) : ∃ out, startOverlay w h hM vM r = .ok out := by
  have heval : startOverlay w h hM vM r =
      (if (nextRand r).1 % 2 = 0 then
        (msetChecked w h hM 0 0 true).bind (fun horiz' =>
          (msetChecked w h vM 0 0 false).bind (fun vert' =>
            .ok (horiz', vert', (nextRand r).2)))
      else
        (msetChecked w h hM 0 0 false).bind (fun horiz' =>
          (msetChecked w h vM 0 0 true).bind (fun vert' =>
            .ok (horiz', vert', (nextRand r).2)))) := rfl
  rw [heval]
  by_cases hp : (nextRand r).1 % 2 = 0
  · simp only [if_pos hp, msetChecked_ok w h hM 0 0 true ⟨by omega, by omega⟩,
      msetChecked_ok w h vM 0 0 false ⟨by omega, by omega⟩, ebind_ok]
    exact ⟨_, rfl⟩
  · simp only [if_neg hp, msetChecked_ok w h hM 0 0 false ⟨by omega, by omega⟩,
      msetChecked_ok w h vM 0 0 true ⟨by omega, by omega⟩, ebind_ok]
    exact ⟨_, rfl⟩

/-- `generate_maze` for arbitrary dimensions, one loop iteration desugared. -/
theorem generate_maze_eval_gen (w h n : Nat) (rand : Rand) :
    generate_maze w h (n+1) rand =
      (centerOverlay w h (primPhase w h rand).horiz (primPhase w h rand).vert
          (primPhase w h rand).rand).bind (fun co =>
        (startOverlay w h co.1 co.2.1 co.2.2).bind (fun so =>
          if is_fully_connected so.1 so.2.1 w h then .ok (so.1, so.2.1)
          else generate_maze w h n so.2.2)) := rfl

/-- Undersized grids are not rejected up front: the Prim phase runs, and
only then does the first out-of-range center write surface as an
`IndexError`. -/
theorem generate_maze_small_err (w h : Nat) (hsmall : w < 6 ∨ h < 6)
    (n : Nat) (rand : Rand) :
    generate_maze w h (n+1) rand = .error "IndexError" := by
  rw [generate_maze_eval_gen,
    centerOverlay_small_err w h (primPhase w h rand).horiz (primPhase w h rand).vert
      (primPhase w h rand).rand hsmall, ebind_err]

/-- With `width, height ≥ 6` no iteration of `generate_maze` can raise
`IndexError`. -/
theorem generate_maze_large_no_index_error (w h : Nat) (hw : 6 ≤ w) (hh : 6 ≤ h) :
    ∀ (fuel : Nat) (rand : Rand), generate_maze w h fuel rand ≠ .error "IndexError" := by
  intro fuel
  induction fuel with
  | zero =>
    intro rand hcontra
    exact absurd (Except.error.inj hcontra) (by decide)
  | succ n ih =>
    intro rand hcontra
    rw [generate_maze_eval_gen] at hcontra
    obtain ⟨co, hco⟩ := centerOverlay_ok_large w h hw hh
      (primPhase w h rand).horiz (primPhase w h rand).vert (primPhase w h rand).rand
    simp only [hco, ebind_ok] at hcontra
    obtain ⟨so, hso⟩ := startOverlay_ok_large w h hw hh co.1 co.2.1 co.2.2
    simp only [hso, ebind_ok] at hcontra
    by_cases hfc : is_fully_connected so.1 so.2.1 w h = true
    · rw [if_pos hfc] at hcontra
      exact Except.noConfusion hcontra
    · rw [if_neg hfc] at hcontra
      exact ih so.2.2 hcontra

/-- C8 counterexample: the claimed fail-fast parameter validation does not
exist.  At `width = height = 6` the 2x2 center region `(4,4)-(5,5)` touches
the grid boundary (column and row 5 are the last ones), which the spec says
must be rejected — yet `generate_maze 6 6` happily returns a maze on this
concrete run. -/
theorem generate_maze_no_validation_cex :
    exceptOk (generate_maze 6 6 1 (lcgList 8 200)) = true := by decide

/-- C8 (corrected): `generate_maze` performs no parameter validation at
all.  For `width < 6` or `height < 6` every iteration dies with an
`IndexError` raised by the hardcoded center writes — after the Prim phase,
not before any generation attempt; for `width, height ≥ 6` (including
center placements the spec says to reject, see the counterexample)
`IndexError` is never raised. -/
theorem generate_maze_validation_corrected (w h fuel : Nat) (rand : Rand) :
    (w < 6 ∨ h < 6 → generate_maze w h (fuel+1) rand = .error "IndexError") ∧
    (6 ≤ w → 6 ≤ h → generate_maze w h fuel rand ≠ .error "IndexError") := by
  constructor
  · intro hsmall
    exact generate_maze_small_err w h hsmall fuel rand
  · intro hw hh
    exact generate_maze_large_no_index_error w h hw hh fuel rand

theorem generate_maze_validation_corrected_witness :
    generate_maze 3 7 1 [] = .error "IndexError" ∧
    generate_maze 6 6 0 [] ≠ .error "IndexError" :=
  ⟨(generate_maze_validation_corrected 3 7 0 []).1 (by decide),
   (generate_maze_validation_corrected 6 6 0 []).2 (by decide) (by decide)⟩

end MicroMouse
